import Mathlib

/-!
Verification development for the `reveal` code-exploration core.

Each Python function under scrutiny is embedded shallowly as an executable
Lean definition, keeping the source's control flow: Python slices are
modelled with full negative-index semantics over `Int`, `dict.get` defaults
become `Option.getD`, Python truthiness on optional integers / strings is
modelled explicitly, and in-place mutation becomes explicit state passing.
-/

namespace Reveal

/-! ## Python slice primitives

`pyIndex len i` clamps a (possibly negative) Python slice bound `i` to an
absolute index in `[0, len]`, exactly as CPython normalises slice bounds for
step `+1`.  `pySlice items a b` is `items[a:b]`; `pySliceFrom items a` is
`items[a:]`. -/

def pyIndex (len : Nat) (i : Int) : Nat :=
  (min (max (if i < 0 then (len : Int) + i else i) 0) (len : Int)).toNat

def pySlice {α : Type} (items : List α) (a b : Int) : List α :=
  (items.drop (pyIndex items.length a)).take
    (pyIndex items.length b - pyIndex items.length a)

def pySliceFrom {α : Type} (items : List α) (a : Int) : List α :=
  items.drop (pyIndex items.length a)

/-! ## `reveal/base.py` — `FileAnalyzer._apply_semantic_slice`

```python
if not items:
    return items
if head is not None:
    return items[:head]
elif tail is not None:
    return items[-tail:]
elif range is not None:
    start, end = range
    return items[start-1:end]
else:
    return items
```
-/

namespace FileAnalyzer

def _apply_semantic_slice {α : Type} (items : List α)
    (head tail : Option Int) (range : Option (Int × Int)) : List α :=
  if items.isEmpty then items
  else
    match head with
    | some h => pySlice items 0 h
    | none =>
      match tail with
      | some t => pySliceFrom items (-t)
      | none =>
        match range with
        | some (start, «end») => pySlice items (start - 1) «end»
        | none => items

end FileAnalyzer

/-! ## `reveal/analyzers/base.py` — `BaseAnalyzer.in_focus_range`

```python
if self.focus_start is None and self.focus_end is None:
    return True
if self.focus_start and line_num < self.focus_start:
    return False
if self.focus_end and line_num > self.focus_end:
    return False
return True
```

`optNatTruthy` models Python truthiness of an `Optional[int]`: `None` and
`0` are falsy. -/

def optNatTruthy : Option Nat → Bool
  | none => false
  | some n => decide (n ≠ 0)

namespace BaseAnalyzer

def in_focus_range (focus_start focus_end : Option Nat) (line_num : Nat) : Bool :=
  if focus_start = none ∧ focus_end = none then true
  else if optNatTruthy focus_start ∧ line_num < focus_start.getD 0 then false
  else if optNatTruthy focus_end ∧ line_num > focus_end.getD 0 then false
  else true

end BaseAnalyzer

/-- An extracted structural element as the analyzers see it: only its start
line matters for focus filtering. -/
structure AnalyzedElement where
  line : Nat
  deriving DecidableEq, Repr

/-- The analyzers keep exactly the matched elements whose start line passes
`in_focus_range`. -/
def filterInFocus (focus_start focus_end : Option Nat)
    (elems : List AnalyzedElement) : List AnalyzedElement :=
  elems.filter (fun el => BaseAnalyzer.in_focus_range focus_start focus_end el.line)

/-! ## `reveal/rules/base.py` and `reveal/rules/__init__.py` — rule selection

A rule class carries `code`, `category` (an optional `RulePrefix` enum
member) and `enabled`.  `rulePrefixValues` lists the values of the
`RulePrefix` enum; `RulePrefix(pattern)` succeeds exactly when `pattern` is
one of them. -/

def rulePrefixValues : List String :=
  ["E", "S", "C", "B", "PERF", "M", "I", "U", "R"]

structure RuleClass where
  code : String
  category : Option String
  enabled : Bool
  deriving DecidableEq, Repr

/-- Python `s.startswith(pre)`: `pre` is a prefix of `s`, char by char. -/
def strStartsWith (s pre : String) : Bool :=
  pre.data.isPrefixOf s.data

namespace RuleRegistry

/-- `RuleRegistry._matches_patterns`:

```python
code = rule_class.code
for pattern in patterns:
    if code == pattern:
        return True
    if code.startswith(pattern):
        return True
    try:
        prefix = RulePrefix(pattern)
        if rule_class.category == prefix:
            return True
    except (ValueError, AttributeError):
        pass
return False
```
-/
def _matches_patterns (rule_class : RuleClass) (patterns : List String) : Bool :=
  patterns.any fun pattern =>
    rule_class.code = pattern
    ∨ strStartsWith rule_class.code pattern
    ∨ (pattern ∈ rulePrefixValues ∧ rule_class.category = some pattern)

/-- `RuleRegistry.get_rules` (the registry's discovered rule list is passed
explicitly):

```python
rules = cls._rules.copy()
if select:
    rules = [r for r in rules if cls._matches_patterns(r, select)]
if ignore:
    rules = [r for r in rules if not cls._matches_patterns(r, ignore)]
rules = [r for r in rules if r.enabled]
return rules
```

`select`/`ignore` are optional lists; `None` and `[]` are both falsy, so both
are modelled by the empty list. -/
def get_rules (rules : List RuleClass) (select ignore : List String) :
    List RuleClass :=
  let rules := if select.isEmpty then rules
    else rules.filter (fun r => _matches_patterns r select)
  let rules := if ignore.isEmpty then rules
    else rules.filter (fun r => !_matches_patterns r ignore)
  rules.filter (fun r => r.enabled)

end RuleRegistry

/-! ## `reveal/types.py` — the type and relationship registries -/

/-- Python truthiness of an `Optional[str]`: `None` and `""` are falsy. -/
def optStrTruthy : Option String → Bool
  | none => false
  | some s => decide (s ≠ "")

/-- An entity type declaration (`Entity` dataclass).  Property kinds are
kept abstract as strings naming the Python type annotation. -/
structure EntityDecl where
  properties : List (String × String)
  inherits : Option String := none
  contains : List String := []
  searchable : List String := []
  deriving DecidableEq, Repr

/-- A registered type map, in insertion order (Python `dict` semantics:
unique keys, ordered). -/
def TypeMap : Type := List (String × EntityDecl)

namespace TypeRegistry

/-- `TypeRegistry.is_subtype_of`, with fuel for the unguarded recursion on
`entity.inherits` (the Python function can recurse forever on a cyclic
unresolved chain; exhausted fuel returns `false`):

```python
if child == parent:
    return True
entity = self.types.get(child)
if not entity or not entity.inherits:
    return False
if entity.inherits == parent:
    return True
return self.is_subtype_of(entity.inherits, parent)
```
-/
def is_subtype_of (types : TypeMap) : Nat → String → String → Bool
  | fuel, child, parent =>
    if child = parent then true
    else
      match List.lookup child types with
      | none => false
      | some entity =>
        if !optStrTruthy entity.inherits then false
        else
          let inh := entity.inherits.getD ""
          if inh = parent then true
          else
            match fuel with
            | 0 => false
            | fuel + 1 => is_subtype_of types fuel inh parent

end TypeRegistry

/-- A reference to an entity instance, as the dict
`{'type': ..., 'name': ...}`; `dict.get` of a missing key is `None`. -/
structure EntityRef where
  type_ : Option String
  name : Option String
  deriving DecidableEq, Repr

/-- A relationship edge `{'from': ..., 'to': ...}` (extra non-endpoint
properties are irrelevant to traversal). -/
structure RelEdge where
  from_ : EntityRef
  to_ : EntityRef
  deriving DecidableEq, Repr

/-- A relationship definition (`RelationshipDef` dataclass), restricted to
the fields traversal consults. -/
structure RelationshipDecl where
  bidirectional : Bool := false
  reverse_name : Option String := none
  transitive : Bool := false
  deriving DecidableEq, Repr

namespace RelationshipRegistry

/-- `RelationshipRegistry._entities_match`:

```python
return (entity1.get('type') == entity2.get('type') and
        entity1.get('name') == entity2.get('name'))
```
-/
def _entities_match (entity1 entity2 : EntityRef) : Bool :=
  entity1.type_ = entity2.type_ ∧ entity1.name = entity2.name

/-- The recursive inner `traverse` of `traverse_transitive`, with the
mutable `visited` / `reachable` state passed explicitly.  Fuel bounds the
recursion depth; the visited-set guard keeps the real recursion finite, and
`traverse_transitive` below supplies provably sufficient fuel.

```python
def traverse(entity):
    entity_id = (entity.get('type'), entity.get('name'))
    if entity_id in visited:
        return
    visited.add(entity_id)
    for edge in edges:
        if self._entities_match(edge['from'], entity):
            to_entity = edge['to']
            reachable.append(to_entity)
            traverse(to_entity)
```
-/
def traverse (edges : List RelEdge) :
    Nat → List (Option String × Option String) → List EntityRef → EntityRef →
      List (Option String × Option String) × List EntityRef
  | 0, visited, reachable, _ => (visited, reachable)
  | fuel + 1, visited, reachable, entity =>
    let entity_id := (entity.type_, entity.name)
    if entity_id ∈ visited then (visited, reachable)
    else
      edges.foldl
        (fun st edge =>
          if _entities_match edge.from_ entity then
            let st' := (st.1, st.2 ++ [edge.to_])
            traverse edges fuel st'.1 st'.2 edge.to_
          else st)
        (entity_id :: visited, reachable)

/-- `RelationshipRegistry.traverse_transitive`:

```python
rel_def = self.relationships.get(rel_name)
if not rel_def or not rel_def.transitive:
    return []
edges = relationship_data.get(rel_name, [])
visited = set()
reachable = []
def traverse(entity): ...
traverse(start_entity)
return reachable
```

The fuel `edges.length + 1` suffices: every level of real recursion adds a
previously unvisited id taken from an edge target, and each edge contributes
at most one recursive call per traversal of its source. -/
def traverse_transitive (relationships : List (String × RelationshipDecl))
    (rel_name : String) (start_entity : EntityRef)
    (relationship_data : List (String × List RelEdge)) : List EntityRef :=
  match List.lookup rel_name relationships with
  | none => []
  | some rel_def =>
    if !rel_def.transitive then []
    else
      let edges := (List.lookup rel_name relationship_data).getD []
      (traverse edges (edges.length + 1) [] [] start_entity).2

end RelationshipRegistry

/-! ## `reveal/treesitter.py` — structural extraction over a parse tree

A parse-tree node exposes a type tag, 0-indexed start/end rows, its raw
source text, and ordered children (the abstract language-binding
capability). -/

inductive TSNode where
  | mk (type_ : String) (startRow endRow : Nat) (text : String)
      (children : List TSNode)

def TSNode.type_ : TSNode → String
  | .mk t _ _ _ _ => t

def TSNode.startRow : TSNode → Nat
  | .mk _ s _ _ _ => s

def TSNode.endRow : TSNode → Nat
  | .mk _ _ e _ _ => e

def TSNode.text : TSNode → String
  | .mk _ _ _ tx _ => tx

def TSNode.children : TSNode → List TSNode
  | .mk _ _ _ _ cs => cs

/-- Python `str.strip(chars)`: remove any of `chars` from both ends. -/
def pyStripChars (chars : List Char) (s : String) : String :=
  (s.dropWhile (· ∈ chars)).dropRightWhile (· ∈ chars)

/-- Python `str.rstrip(chars)`. -/
def pyRstripChars (chars : List Char) (s : String) : String :=
  s.dropRightWhile (· ∈ chars)

namespace TreeSitterAnalyzer

/-- An element dict appended by the extraction helpers; categories populate
different subsets of the keys. -/
structure StructElem where
  line : Nat
  line_end : Option Nat := none
  name : Option String := none
  signature : Option String := none
  content : Option String := none
  line_count : Option Nat := none
  depth : Option Nat := none
  deriving DecidableEq, Repr

/-- The recursive `walk` of `_find_nodes_by_type`: pre-order collection of
nodes whose type tag equals `node_type`. -/
def walkCollect (node_type : String) : TSNode → List TSNode
  | .mk t s e tx children =>
    (if t = node_type then [TSNode.mk t s e tx children] else [])
      ++ children.attach.flatMap fun c => walkCollect node_type c.1
termination_by n => sizeOf n
decreasing_by
  have h := List.sizeOf_lt_of_mem c.2
  simp only [TSNode.mk.sizeOf_spec]
  omega

/-- `TreeSitterAnalyzer._find_nodes_by_type` (`self.tree` is the optional
parse result; `None` yields `[]`). -/
def _find_nodes_by_type (tree : Option TSNode) (node_type : String) :
    List TSNode :=
  match tree with
  | none => []
  | some root => walkCollect node_type root

/-- `TreeSitterAnalyzer._get_node_name`: first child typed `identifier` or
`name`, if any, gives the name text. -/
def _get_node_name (node : TSNode) : Option String :=
  ((node.children.find? fun child =>
      child.type_ = "identifier" ∨ child.type_ = "name")).map TSNode.text

/-- The first matching entry of `['def ', 'func ', 'fn ', 'function ',
'async def ', 'pub fn ', 'fn ', 'async fn ']` is stripped (the loop breaks
after the first hit). -/
def stripFuncKeyword (first_line : String) : String :=
  match ["def ", "func ", "fn ", "function ", "async def ", "pub fn ",
      "fn ", "async fn "].find? (fun p => first_line.startsWith p) with
  | some p => first_line.drop p.length
  | none => first_line

/-- `first_line[first_line.index('('):]` — the line from its first `(` on
(only used when a `(` is present). -/
def fromFirstParen (s : String) : String :=
  match s.splitOn "(" with
  | [] => s
  | _ :: t => if t.isEmpty then s else "(" ++ String.intercalate "(" t

/-- `TreeSitterAnalyzer._get_signature`. -/
def _get_signature (node : TSNode) : String :=
  let pr := node.children.foldl
    (fun (acc : String × String) child =>
      if child.type_ = "parameters" ∨ child.type_ = "parameter_list"
          ∨ child.type_ = "formal_parameters" then
        (child.text, acc.2)
      else if child.type_ = "return_type" ∨ child.type_ = "type" then
        (acc.1, " -> " ++ pyStripChars [':', ' '] child.text)
      else acc)
    ("", "")
  if pr.1 ≠ "" then pr.1 ++ pr.2
  else
    let first_line := ((node.text.splitOn "\n").headD "").trim
    let first_line := stripFuncKeyword first_line
    if first_line.contains '(' then
      (pyRstripChars [':'] (fromFirstParen first_line)).trim
    else first_line

/-- The fixed control-flow (nesting construct) type set of
`_get_nesting_depth`. -/
def nesting_types : List String :=
  ["if_statement", "if_expression", "if",
   "for_statement", "for_expression", "for", "while_statement", "while",
   "try_statement", "try", "with_statement", "with",
   "match_statement", "match_expression", "case_statement",
   "do_statement", "switch_statement"]

/-- The recursive `get_depth` of `_get_nesting_depth`:

```python
def get_depth(n, current_depth=0):
    max_depth = current_depth
    for child in n.children:
        child_depth = current_depth
        if child.type in nesting_types:
            child_depth = current_depth + 1
        nested_depth = get_depth(child, child_depth)
        max_depth = max(max_depth, nested_depth)
    return max_depth
```
-/
def get_depth : TSNode → Nat → Nat
  | .mk t s e tx children, current_depth =>
    children.attach.foldl
      (fun max_depth c =>
        let child_depth :=
          if c.1.type_ ∈ nesting_types then current_depth + 1
          else current_depth
        max max_depth (get_depth c.1 child_depth))
      current_depth
termination_by n _ => sizeOf n
decreasing_by
  have h := List.sizeOf_lt_of_mem c.2
  simp only [TSNode.mk.sizeOf_spec]
  omega

/-- `TreeSitterAnalyzer._get_nesting_depth` (`if not node: return 0`). -/
def _get_nesting_depth (node : Option TSNode) : Nat :=
  match node with
  | none => 0
  | some n => get_depth n 0

/-- `TreeSitterAnalyzer._extract_imports`. -/
def _extract_imports (tree : Option TSNode) : List StructElem :=
  ["import_statement", "import_declaration", "use_declaration",
   "using_directive", "import_from_statement"].flatMap fun import_type =>
    (_find_nodes_by_type tree import_type).map fun node =>
      { line := node.startRow + 1, content := some node.text }

/-- `TreeSitterAnalyzer._extract_functions` (`if name:` keeps only truthy,
i.e. present and non-empty, names). -/
def _extract_functions (tree : Option TSNode) : List StructElem :=
  ["function_definition", "function_declaration", "function_item",
   "method_declaration", "function"].flatMap fun func_type =>
    (_find_nodes_by_type tree func_type).filterMap fun node =>
      let name := _get_node_name node
      if optStrTruthy name then
        let line_start := node.startRow + 1
        let line_end := node.endRow + 1
        some { line := line_start, line_end := some line_end,
               name := name, signature := some (_get_signature node),
               line_count := some (line_end - line_start + 1),
               depth := some (_get_nesting_depth (some node)) }
      else none

/-- `TreeSitterAnalyzer._extract_classes`. -/
def _extract_classes (tree : Option TSNode) : List StructElem :=
  ["class_definition", "class_declaration", "struct_item"].flatMap
    fun class_type =>
      (_find_nodes_by_type tree class_type).filterMap fun node =>
        let name := _get_node_name node
        if optStrTruthy name then
          some { line := node.startRow + 1, line_end := some (node.endRow + 1),
                 name := name }
        else none

/-- `TreeSitterAnalyzer._extract_structs`. -/
def _extract_structs (tree : Option TSNode) : List StructElem :=
  ["struct_item", "struct_specifier", "struct_declaration"].flatMap
    fun struct_type =>
      (_find_nodes_by_type tree struct_type).filterMap fun node =>
        let name := _get_node_name node
        if optStrTruthy name then
          some { line := node.startRow + 1, line_end := some (node.endRow + 1),
                 name := name }
        else none

/-- The outcome of `_parse_tree`: tree-sitter either produces a tree or
raises, and the `except` clause maps any raise to `self.tree = None`. -/
inductive ParseOutcome where
  | parsed (t : TSNode)
  | raised (msg : String)

/-- `TreeSitterAnalyzer._parse_tree`:

```python
try:
    ...
    self.tree = parser.parse(self.content.encode('utf-8'))
except Exception as e:
    self.tree = None
```
-/
def _parse_tree : ParseOutcome → Option TSNode
  | .parsed t => some t
  | .raised _ => none

/-- `TreeSitterAnalyzer.get_structure`:

```python
if not self.tree:
    return {}
structure = {}
structure['imports'] = self._extract_imports()
structure['functions'] = self._extract_functions()
structure['classes'] = self._extract_classes()
structure['structs'] = self._extract_structs()
return {k: v for k, v in structure.items() if v}
```
-/
def get_structure (tree : Option TSNode) :
    List (String × List StructElem) :=
  match tree with
  | none => []
  | some root =>
    [("imports", _extract_imports (some root)),
     ("functions", _extract_functions (some root)),
     ("classes", _extract_classes (some root)),
     ("structs", _extract_structs (some root))].filter
      fun kv => !kv.2.isEmpty

end TreeSitterAnalyzer

/-! ## `reveal/main.py` — `build_hierarchy`

The builder receives flat items (dicts with `line` and possibly
`line_end`), sorts them stably by `item.get('line', 0)`, and scans backward
for the nearest preceding strictly-containing candidate:

```python
all_items.sort(key=lambda x: x.get('line', 0))
for i, item in enumerate(all_items):
    item_start = item.get('line', 0)
    item_end = item.get('line_end', item_start)
    parent = None
    for j in range(i - 1, -1, -1):
        candidate = all_items[j]
        candidate_start = candidate.get('line', 0)
        candidate_end = candidate.get('line_end', candidate_start)
        if candidate_start < item_start and candidate_end >= item_end:
            parent = candidate
            break
    if parent:
        parent['children'].append(item)
        item['is_child'] = True
    else:
        item['is_child'] = False
return [item for item in all_items if not item.get('is_child', False)]
```

Each appended child dict is aliased, so the returned roots carry the full
nested forest; a child's `children` list collects exactly the later items
whose backward scan stopped at it, in scan order. -/

/-- A flat element as `build_hierarchy` reads it: `line` is the value of
`item.get('line', 0)` and `line_end` is present iff the dict has the key. -/
structure HierItem where
  line : Nat
  line_end : Option Nat := none
  deriving DecidableEq, Repr

/-- `item.get('line_end', item_start)`. -/
def HierItem.lineEnd (it : HierItem) : Nat :=
  it.line_end.getD it.line

/-- `all_items` after the stable sort by `line`. -/
def sortedItems (items : List HierItem) : List HierItem :=
  items.mergeSort (fun a b => a.line ≤ b.line)

/-- `all_items[j]` (indices used below are always in bounds). -/
def itemAt (l : List HierItem) (j : Nat) : HierItem :=
  l.getD j { line := 0 }

/-- The backward scan's containment test: `candidate_start < item_start and
candidate_end >= item_end`. -/
def hierContains (l : List HierItem) (j i : Nat) : Bool :=
  (itemAt l j).line < (itemAt l i).line
    ∧ (itemAt l j).lineEnd ≥ (itemAt l i).lineEnd

/-- The backward scan `for j in range(i-1, -1, -1)` with its `break`: the
first (largest) `j < i` whose item contains item `i`. -/
def parentIdx (l : List HierItem) (i : Nat) : Option Nat :=
  (List.range i).reverse.find? fun j => hierContains l j i

/-- The indices appended to item `j`'s `children` list, in append order. -/
def childIdxs (l : List HierItem) (j : Nat) : List Nat :=
  (List.range l.length).filter fun i => parentIdx l i = some j

/-- The indices of the items returned as roots (`is_child == False`), in
sorted order. -/
def rootIdxs (l : List HierItem) : List Nat :=
  (List.range l.length).filter fun i => parentIdx l i = none

/-- A hierarchy node: an element together with its nested children. -/
inductive HierNode where
  | mk (item : HierItem) (children : List HierNode)

def HierNode.item : HierNode → HierItem
  | .mk it _ => it

def HierNode.children : HierNode → List HierNode
  | .mk _ cs => cs

/-- The fully nested node rooted at index `j` of the sorted list (the
aliased-dict fixpoint of the imperative construction). -/
def nodeAt (l : List HierItem) (j : Nat) : HierNode :=
  .mk (itemAt l j) ((childIdxs l j).attach.map fun i => nodeAt l i.1)
termination_by l.length - j
decreasing_by
  have h2 : i.1 ∈ childIdxs l j := i.2
  simp only [childIdxs, List.mem_filter, List.mem_range, decide_eq_true_eq] at h2
  have hp : parentIdx l i.1 = some j := h2.2
  have hmem : j ∈ (List.range i.1).reverse := List.mem_of_find?_eq_some hp
  rw [List.mem_reverse, List.mem_range] at hmem
  omega

/-- `build_hierarchy`: the returned root items, each carrying its nested
`children`. -/
def build_hierarchy (items : List HierItem) : List HierNode :=
  (rootIdxs (sortedItems items)).map fun j => nodeAt (sortedItems items) j

/-- Pre-order flattening of one hierarchy node. -/
def flattenNode : HierNode → List HierItem
  | .mk item children => item :: children.attach.flatMap fun c => flattenNode c.1
termination_by n => sizeOf n
decreasing_by
  have h := List.sizeOf_lt_of_mem c.2
  simp only [HierNode.mk.sizeOf_spec]
  omega

/-- Pre-order flattening of the returned forest, roots in order. -/
def flattenForest (forest : List HierNode) : List HierItem :=
  forest.flatMap flattenNode

/-- The pre-order index list of the subtree rooted at index `j`. -/
def subtreeIdx (l : List HierItem) (j : Nat) : List Nat :=
  j :: (childIdxs l j).attach.flatMap fun i => subtreeIdx l i.1
termination_by l.length - j
decreasing_by
  have h2 : i.1 ∈ childIdxs l j := i.2
  simp only [childIdxs, List.mem_filter, List.mem_range, decide_eq_true_eq] at h2
  have hp : parentIdx l i.1 = some j := h2.2
  have hmem : j ∈ (List.range i.1).reverse := List.mem_of_find?_eq_some hp
  rw [List.mem_reverse, List.mem_range] at hmem
  omega

/-- `isAncestor l j k` is true iff following the `parentIdx` chain upward
from `k` reaches `j` (in zero or more steps). -/
def isAncestor (l : List HierItem) (j : Nat) : Nat → Bool
  | k =>
    if k = j then true
    else
      match h : parentIdx l k with
      | none => false
      | some p => isAncestor l j p
termination_by k => k
decreasing_by
  have hmem : p ∈ (List.range k).reverse := List.mem_of_find?_eq_some h
  rw [List.mem_reverse, List.mem_range] at hmem
  exact hmem

/-! ## `reveal/types.py` — `TypeRegistry.resolve_inheritance`

The registry state `self.types` is a dict mapping names to mutable
`Entity` records; resolution mutates entities in place.  The embedding
passes the map, the `resolved` set (as a list in insertion order) and the
`in_progress` set explicitly, and threads the `ValueError` raise through
`Except`.  Fuel bounds the recursion depth; `in_progress` strictly grows
within the registered key set, so `types.length + 1` provably suffices. -/

/-- In-place mutation of the entity registered under `n`. -/
def updateType (st : TypeMap) (n : String) (e : EntityDecl) : TypeMap :=
  st.map fun p => if p.1 = n then (n, e) else p

/-- Python `{**parent, **child}`: parent keys first (child values winning),
then child-only keys. -/
def dictMerge (parent child : List (String × String)) :
    List (String × String) :=
  (parent.map fun kv =>
      match List.lookup kv.1 child with
      | some v => (kv.1, v)
      | none => kv)
    ++ child.filter fun kv => (List.lookup kv.1 parent).isNone

/-- The merge `resolve_type` applies to a child entity once its parent is
resolved: child properties override, `contains`/`searchable` are unioned
parent-first. -/
def mergeEntity (parent child : EntityDecl) : EntityDecl :=
  { properties := dictMerge parent.properties child.properties,
    inherits := child.inherits,
    contains := parent.contains
      ++ child.contains.filter (fun c => !parent.contains.contains c),
    searchable := parent.searchable
      ++ child.searchable.filter (fun s => !parent.searchable.contains s) }

inductive ResolveErr where
  | circular (type_name : String)
  | outOfFuel
  deriving DecidableEq, Repr

namespace TypeRegistry

/-- The inner `resolve_type` of `TypeRegistry.resolve_inheritance`:

```python
def resolve_type(type_name):
    if type_name in resolved: return
    if type_name in in_progress:
        raise ValueError(f"Circular inheritance detected: {type_name}")
    entity = self.types.get(type_name)
    if not entity or not entity.inherits:
        resolved.add(type_name); return
    in_progress.add(type_name)
    parent_name = entity.inherits
    if parent_name not in self.types:
        resolved.add(type_name); in_progress.remove(type_name); return
    resolve_type(parent_name)
    parent = self.types[parent_name]
    entity.properties = {**parent.properties, **entity.properties}
    entity.contains = list(parent.contains) + [c for c in entity.contains
                                               if c not in parent.contains]
    entity.searchable = list(parent.searchable) + [s for s in entity.searchable
                                                   if s not in parent.searchable]
    resolved.add(type_name)
    in_progress.remove(type_name)
```
-/
def resolve_type :
    Nat → TypeMap → List String → List String → String →
      Except ResolveErr (TypeMap × List String)
  | 0, _, _, _, _ => .error .outOfFuel
  | fuel + 1, types, resolved, in_progress, type_name =>
    if type_name ∈ resolved then .ok (types, resolved)
    else if type_name ∈ in_progress then .error (.circular type_name)
    else
      match List.lookup type_name types with
      | none => .ok (types, resolved ++ [type_name])
      | some entity =>
        if !optStrTruthy entity.inherits then .ok (types, resolved ++ [type_name])
        else
          let parent_name := entity.inherits.getD ""
          if (List.lookup parent_name types).isNone then
            .ok (types, resolved ++ [type_name])
          else
            match resolve_type fuel types resolved
                (type_name :: in_progress) parent_name with
            | .error e => .error e
            | .ok (types', resolved') =>
              -- the lookup cannot miss: resolution preserves the key set
              let parent := (List.lookup parent_name types').getD entity
              .ok (updateType types' type_name (mergeEntity parent entity),
                   resolved' ++ [type_name])

/-- `TypeRegistry.resolve_inheritance`: `resolve_type` over every
registered name (the `_inheritance_resolved` memo guard is state the claims
do not touch).  On success the final registry and the completion order of
the `resolved` set are returned. -/
def resolve_inheritance (types : TypeMap) :
    Except ResolveErr (TypeMap × List String) :=
  (types.map Prod.fst).foldlM
    (fun acc type_name =>
      resolve_type (types.length + 1) acc.1 acc.2 [] type_name)
    (types, [])

end TypeRegistry

/-! ## Inheritance-graph notions used to state the resolution claims -/

/-- The effective parent link that `resolve_type` follows out of `n`: the
declared parent, provided `n` is registered, its `inherits` is truthy
(present and non-empty), and the parent name is registered. -/
def parentOf (types : TypeMap) (n : String) : Option String :=
  match List.lookup n types with
  | none => none
  | some e =>
    if optStrTruthy e.inherits then
      let p := e.inherits.getD ""
      if (List.lookup p types).isSome then some p else none
    else none

/-- The ancestors of `n` along `parentOf`, followed for at most `fuel`
steps. -/
def ancestorsUpTo (types : TypeMap) : Nat → String → List String
  | 0, _ => []
  | fuel + 1, n =>
    match parentOf types n with
    | none => []
    | some p => p :: ancestorsUpTo types fuel p

/-- No registered name reaches itself along `parentOf` (chains longer than
the number of registered names necessarily repeat, so this bound decides
acyclicity). -/
def acyclicTypes (types : TypeMap) : Prop :=
  ∀ n ∈ types.map Prod.fst, n ∉ ancestorsUpTo types types.length n

/-- `b` is reached from `a` in exactly `k` `parentOf` steps. -/
def reachesIn (types : TypeMap) : Nat → String → String → Prop
  | 0, a, b => a = b
  | k + 1, a, b => ∃ c, parentOf types a = some c ∧ reachesIn types k c b

/-- The consecutive `parentOf` links of a chain, ending in `tgt`. -/
def chainLinks (types : TypeMap) : List String → String → Prop
  | [], _ => True
  | [a], tgt => parentOf types a = some tgt
  | a :: b :: rest, tgt =>
    parentOf types a = some b ∧ chainLinks types (b :: rest) tgt

/-- A circular inheritance chain: a nonempty list of registered names whose
`parentOf` links run through the list and back to its head. -/
def CycleChain (types : TypeMap) (c : List String) : Prop :=
  c ≠ [] ∧ chainLinks types c (c.headD "")

/-- `p` is listed before `n` in `xs` (the resolution completion order). -/
def beforeIn (xs : List String) (p n : String) : Prop :=
  ∃ l1 l2, xs = l1 ++ l2 ∧ p ∈ l1 ∧ n ∈ l2 ∧ n ∉ l1

/-! ## Simulation invariants for `resolve_inheritance`

`types₀` is the registry as first registered; `st` the current mutated
registry; `res` the `resolved` set in completion order. -/

/-- Mutation never adds or removes keys. -/
def KeysEq (types₀ st : TypeMap) : Prop :=
  st.map Prod.fst = types₀.map Prod.fst

/-- Entities not yet resolved still hold their original declaration. -/
def UnresolvedIntact (types₀ st : TypeMap) (res : List String) : Prop :=
  ∀ n, n ∉ res → List.lookup n st = List.lookup n types₀

/-- What being resolved means for one name: with a truthy, registered
parent, the entity is the merge of the (already resolved, earlier-listed)
parent's current entity with its own original declaration; otherwise it is
untouched. -/
def RSpec (types₀ st : TypeMap) (res : List String) (n : String) : Prop :=
  match List.lookup n types₀ with
  | none => True
  | some e =>
    if optStrTruthy e.inherits = true
        ∧ (List.lookup (e.inherits.getD "") types₀).isSome = true then
      (e.inherits.getD "") ∈ res
        ∧ beforeIn res (e.inherits.getD "") n
        ∧ ∃ pe, List.lookup (e.inherits.getD "") st = some pe
            ∧ List.lookup n st = some (mergeEntity pe e)
    else List.lookup n st = some e

/-- The full state invariant of the resolution walk. -/
def StateInv (types₀ st : TypeMap) (res : List String) : Prop :=
  KeysEq types₀ st ∧ UnresolvedIntact types₀ st res
    ∧ (∀ n ∈ res, RSpec types₀ st res n) ∧ res.Nodup

/-- The `in_progress` stack is a `parentOf` chain ending at the name
currently being resolved: its head's parent is the current name, and so on
down the stack. -/
def ipChainTo (types₀ : TypeMap) : List String → String → Prop
  | [], _ => True
  | a :: rest, m => parentOf types₀ a = some m ∧ ipChainTo types₀ rest a

/-! ## Concrete fixtures used by the claim instances -/

/-- The claim's inheritance scenario: `Base{props:{x:int}}` and
`Child{inherits:Base, props:{y:str}}`. -/
def baseEntity : EntityDecl := { properties := [("x", "int")] }

def childEntity : EntityDecl :=
  { properties := [("y", "str")], inherits := some "Base" }

def baseChildTypes : TypeMap := [("Base", baseEntity), ("Child", childEntity)]

/-- The claim's cyclic schema: `A inherits B` and `B inherits A`. -/
def cycleTypes : TypeMap :=
  [("A", { properties := [], inherits := some "B" }),
   ("B", { properties := [], inherits := some "A" })]

/-- Entity references `A`, `B`, `C`, `D` of a common type `"class"`. -/
def entA : EntityRef := ⟨some "class", some "A"⟩

def entB : EntityRef := ⟨some "class", some "B"⟩

def entC : EntityRef := ⟨some "class", some "C"⟩

def entD : EntityRef := ⟨some "class", some "D"⟩

/-- Forward edges `A→B→C→D` plus the back-edge `D→A`. -/
def cycleEdges : List RelEdge :=
  [⟨entA, entB⟩, ⟨entB, entC⟩, ⟨entC, entD⟩, ⟨entD, entA⟩]

/-- The same cycle plus one extra edge `A→D`, giving `D` two incoming
edges from traversed sources. -/
def cycleEdgesPlus : List RelEdge :=
  [⟨entA, entB⟩, ⟨entB, entC⟩, ⟨entC, entD⟩, ⟨entD, entA⟩, ⟨entA, entD⟩]

/-- A relationship registered with `transitive=True`. -/
def transRel : RelationshipDecl := { transitive := true }

/-- The rule of the claim's concrete scenario: code `"B001"`, category
`RulePrefix.B`, enabled. -/
def ruleB001 : RuleClass := ⟨"B001", some "B", true⟩

/-! ## Spec-side formulation of the nesting-depth metric

Modelled from the spec's words, for comparison with `get_depth`: "the
maximum nesting depth of control-flow constructs along any root-to-leaf
path", a node being control-flow iff its type tag is in the fixed
nesting-construct set, each such node counting one for its subtree. -/

/-- The contribution of one node on a path: `1` if control-flow, else `0`. -/
def nestWeight (c : TSNode) : Nat :=
  if c.type_ ∈ TreeSitterAnalyzer.nesting_types then 1 else 0

/-- For each root-to-leaf path of the subtree, the number of control-flow
nodes strictly below the root (the function node itself is never tested). -/
def leafPathCounts : TSNode → List Nat
  | .mk t s e tx children =>
    if children.isEmpty then [0]
    else children.attach.flatMap fun c =>
      (leafPathCounts c.1).map fun k => nestWeight c.1 + k
termination_by n => sizeOf n
decreasing_by
  have h := List.sizeOf_lt_of_mem c.2
  simp only [TSNode.mk.sizeOf_spec]
  omega

/-- The spec's metric: the maximum of the per-path control-flow counts. -/
def specMaxNestingOnPath (n : TSNode) : Nat :=
  (leafPathCounts n).foldr max 0

/-- The claim's concrete scenario: a function spanning source lines 10–25
(0-indexed rows 9–24) containing one top-level `if`, inside which a `for`
loop contains another `if`. -/
def exampleFunctionNode : TSNode :=
  .mk "function_definition" 9 24 "def f():" [
    .mk "identifier" 9 9 "f" [],
    .mk "parameters" 9 9 "()" [],
    .mk "block" 10 24 "" [
      .mk "if_statement" 10 24 "" [
        .mk "block" 11 24 "" [
          .mk "for_statement" 11 24 "" [
            .mk "block" 12 24 "" [
              .mk "if_statement" 12 24 "" [
                .mk "block" 13 24 "" [
                  .mk "expression_statement" 13 13 "pass" []]]]]]]]]

end Reveal

namespace Reveal

/-! # Theorems -/

/-- C10: `is_subtype_of(child, parent)` returns `True` whenever `child` and
`parent` are the same name — including names never registered in the type
registry — because the `child == parent` check precedes every registry
lookup; the subtype relation is reflexive even on unknown types. -/
theorem C10_is_subtype_of_refl (types : TypeMap) (fuel : Nat) (name : String) :
    TypeRegistry.is_subtype_of types fuel name name = true := by
  rw [TypeRegistry.is_subtype_of]
  simp

/-- C4 counterexample: on a parse failure `get_structure` returns the empty
mapping `{}`, which carries no `error` (or any other) marker field — the
collection claimed to "carry an explicit error marker field" is literally
empty. -/
theorem C4_no_error_marker_counterexample :
    TreeSitterAnalyzer.get_structure
        (TreeSitterAnalyzer._parse_tree (.raised "malformed source")) = []
      ∧ List.lookup "error"
          (TreeSitterAnalyzer.get_structure
            (TreeSitterAnalyzer._parse_tree (.raised "malformed source")))
          = none := by
  constructor <;> rfl

/-- C4 (amended): when parsing fails — tree-sitter raised, so `_parse_tree`
caught the exception and left `self.tree = None` — the extractor never
raises and `get_structure` returns the empty `ElementCollection` `{}`,
with no error marker field attached. -/
theorem C4_parse_failure_empty (msg : String) :
    TreeSitterAnalyzer.get_structure
        (TreeSitterAnalyzer._parse_tree (.raised msg)) = []
      ∧ ∀ marker : String,
          List.lookup marker
            (TreeSitterAnalyzer.get_structure
              (TreeSitterAnalyzer._parse_tree (.raised msg))) = none := by
  exact ⟨rfl, fun _ => rfl⟩

/-- C1 counterexample: over edges `A→B→C→D` plus the back-edge `D→A`,
traversal starting from `A` returns `[B, C, D, A]` — the start entity `A`
is appended when the back-edge is traversed — which is not the claimed
`{B, C, D}` each exactly once. -/
theorem C1_traverse_counterexample :
    RelationshipRegistry.traverse_transitive [("inherits_from", transRel)]
        "inherits_from" entA [("inherits_from", cycleEdges)]
      = [entB, entC, entD, entA]
    ∧ ¬ (RelationshipRegistry.traverse_transitive [("inherits_from", transRel)]
        "inherits_from" entA [("inherits_from", cycleEdges)]).Perm
          [entB, entC, entD] := by
  constructor
  · rfl
  · decide

/-- C1 (amended): the traversal's visited-set guard stops the recursion on
cyclic edge data, but the result list gains one entry per traversed
in-edge rather than per entity: the start entity itself is returned when a
back-edge closes a cycle onto it, and an entity with several in-edges from
traversed sources is listed once per such edge.  Over `A→B→C→D` plus
`D→A`, traversal from `A` returns `[B, C, D, A]`; with a further edge
`A→D` it returns `[B, C, D, A, D]`, listing `D` twice. -/
theorem C1_traverse_transitive_eval :
    RelationshipRegistry.traverse_transitive [("inherits_from", transRel)]
        "inherits_from" entA [("inherits_from", cycleEdges)]
      = [entB, entC, entD, entA]
    ∧ RelationshipRegistry.traverse_transitive [("inherits_from", transRel)]
        "inherits_from" entA [("inherits_from", cycleEdgesPlus)]
      = [entB, entC, entD, entA, entD] := by
  constructor <;> rfl

/-! ## Slice arithmetic helpers -/

theorem pyIndex_natCast (len N : Nat) : pyIndex len (N : Int) = min N len := by
  rw [pyIndex, if_neg (by omega)]
  omega

theorem pyIndex_negCast (len N : Nat) (h : 1 ≤ N) :
    pyIndex len (-(N : Int)) = len - N := by
  rw [pyIndex, if_pos (by omega)]
  omega

theorem drop_take_clip {α : Type} (l : List α) (k m : Nat) :
    (l.drop (min k l.length)).take (min m l.length - min k l.length)
      = (l.drop k).take (m - k) := by
  rcases le_or_lt k l.length with hk | hk
  · rw [min_eq_left hk]
    rcases le_or_lt m l.length with hm | hm
    · rw [min_eq_left hm]
    · rw [min_eq_right hm.le]
      have hlen : (l.drop k).length = l.length - k := List.length_drop k l
      rw [List.take_of_length_le (by omega), List.take_of_length_le (by omega)]
  · rw [min_eq_right hk.le, List.drop_length, List.drop_eq_nil_of_le hk.le]
    simp

/-- C2 counterexample: `tail=0` on a nonempty list returns the whole list
(`items[-0:]` is `items[0:]`), not the claimed last `min(0, len) = 0`
items. -/
theorem C2_tail_zero_counterexample :
    FileAnalyzer._apply_semantic_slice [(7 : Nat)] none (some 0) none = [7]
    ∧ FileAnalyzer._apply_semantic_slice [(7 : Nat)] none (some 0) none ≠ [] := by
  constructor
  · rfl
  · decide

/-- C2 (amended): `head=N` returns the first `min(N, len)` items in order
for every non-negative `N`; `tail=N` returns the last `min(N, len)` items
for every positive `N`, while `tail=0` returns the input unchanged;
`range=(a,b)` with `a ≥ 1` returns the items at 1-indexed inclusive
positions `a..b`, bounds exceeding the length clipped; the empty list
yields the empty list; with no bound supplied the input is returned
unchanged. -/
theorem C2_slice_semantics {α : Type} :
    (∀ (items : List α) (N : Nat),
        FileAnalyzer._apply_semantic_slice items (some (N : Int)) none none
          = items.take N)
    ∧ (∀ (items : List α) (N : Nat), 1 ≤ N →
        FileAnalyzer._apply_semantic_slice items none (some (N : Int)) none
          = items.drop (items.length - N))
    ∧ (∀ items : List α,
        FileAnalyzer._apply_semantic_slice items none (some 0) none = items)
    ∧ (∀ (items : List α) (a b : Nat), 1 ≤ a →
        FileAnalyzer._apply_semantic_slice items none none
            (some ((a : Int), (b : Int)))
          = (items.drop (a - 1)).take (b + 1 - a))
    ∧ (∀ items : List α,
        FileAnalyzer._apply_semantic_slice items none none none = items) := by
  refine ⟨fun items N => ?_, fun items N hN => ?_, fun items => ?_,
    fun items a b ha => ?_, fun items => ?_⟩
  · by_cases hemp : items.isEmpty
    · rw [List.isEmpty_iff] at hemp
      simp [FileAnalyzer._apply_semantic_slice, hemp]
    · rw [FileAnalyzer._apply_semantic_slice, if_neg (by simp [hemp])]
      show pySlice items 0 (N : Int) = items.take N
      have h0 : (0 : Int) = ((0 : Nat) : Int) := rfl
      rw [pySlice, h0, pyIndex_natCast, pyIndex_natCast]
      simp only [Nat.zero_min, List.drop_zero, Nat.sub_zero]
      have h := drop_take_clip items 0 N
      simp only [Nat.zero_min, List.drop_zero, Nat.sub_zero] at h
      exact h
  · by_cases hemp : items.isEmpty
    · rw [List.isEmpty_iff] at hemp
      simp [FileAnalyzer._apply_semantic_slice, hemp]
    · rw [FileAnalyzer._apply_semantic_slice, if_neg (by simp [hemp])]
      show pySliceFrom items (-(N : Int)) = items.drop (items.length - N)
      rw [pySliceFrom, pyIndex_negCast _ _ hN]
  · by_cases hemp : items.isEmpty
    · rw [List.isEmpty_iff] at hemp
      simp [FileAnalyzer._apply_semantic_slice, hemp]
    · rw [FileAnalyzer._apply_semantic_slice, if_neg (by simp [hemp])]
      show pySliceFrom items (-(0 : Int)) = items
      have h0 : (-(0 : Int)) = ((0 : Nat) : Int) := rfl
      rw [pySliceFrom, h0, pyIndex_natCast]
      simp
  · by_cases hemp : items.isEmpty
    · rw [List.isEmpty_iff] at hemp
      simp [FileAnalyzer._apply_semantic_slice, hemp]
    · rw [FileAnalyzer._apply_semantic_slice, if_neg (by simp [hemp])]
      show pySlice items ((a : Int) - 1) (b : Int)
        = (items.drop (a - 1)).take (b + 1 - a)
      have hcast : ((a : Int) - 1) = ((a - 1 : Nat) : Int) := by omega
      rw [pySlice, hcast, pyIndex_natCast, pyIndex_natCast, drop_take_clip]
      congr 1
      omega
  · by_cases hemp : items.isEmpty
    · rw [List.isEmpty_iff] at hemp
      simp [FileAnalyzer._apply_semantic_slice, hemp]
    · rw [FileAnalyzer._apply_semantic_slice, if_neg (by simp [hemp])]

/-- C2 witness: the amended slice semantics evaluated on
`[10, 20, 30, 40, 50]`. -/
theorem C2_slice_semantics_witness :
    FileAnalyzer._apply_semantic_slice [(10 : Nat), 20, 30, 40, 50]
        (some 3) none none = [10, 20, 30]
    ∧ FileAnalyzer._apply_semantic_slice [(10 : Nat), 20, 30, 40, 50]
        none (some 2) none = [40, 50]
    ∧ FileAnalyzer._apply_semantic_slice [(10 : Nat), 20, 30, 40, 50]
        none none (some (2, 9)) = [20, 30, 40, 50] := by
  refine ⟨?_, ?_, ?_⟩
  · exact (C2_slice_semantics.1 [10, 20, 30, 40, 50] 3).trans (by decide)
  · exact (C2_slice_semantics.2.1 [10, 20, 30, 40, 50] 2 (by decide)).trans
      (by decide)
  · exact (C2_slice_semantics.2.2.2.1 [10, 20, 30, 40, 50] 2 9
      (by decide)).trans (by decide)

/-- C9 counterexample: with the supplied focus range `[1, 0]` the falsy
end bound `0` disables the upper check, so an element starting at line `5`
is kept even though `5 ≤ 0` fails. -/
theorem C9_focus_range_counterexample :
    filterInFocus (some 1) (some 0) [⟨5⟩] = [⟨5⟩] ∧ ¬((5 : Nat) ≤ 0) := by
  constructor
  · rfl
  · decide

/-- C9 (amended): for every supplied focus range `[s, e]` whose end bound
is positive, an element is kept iff `s ≤ line_start ≤ e` — so every kept
element lies in the range and elements outside it are excluded — and with
no focus range supplied all matched elements are kept. -/
theorem C9_focus_filter (s e : Nat) (he : 1 ≤ e) :
    (∀ (elems : List AnalyzedElement) (el : AnalyzedElement),
        el ∈ filterInFocus (some s) (some e) elems
          ↔ el ∈ elems ∧ s ≤ el.line ∧ el.line ≤ e)
    ∧ (∀ line : Nat,
        BaseAnalyzer.in_focus_range (some s) (some e) line = true
          ↔ s ≤ line ∧ line ≤ e)
    ∧ (∀ elems : List AnalyzedElement, filterInFocus none none elems = elems) := by
  have hbool : ∀ line : Nat,
      BaseAnalyzer.in_focus_range (some s) (some e) line = true
        ↔ s ≤ line ∧ line ≤ e := by
    intro line
    rw [BaseAnalyzer.in_focus_range]
    by_cases hs : s = 0
    · subst hs
      simp [optNatTruthy]
      omega
    · simp [optNatTruthy, hs]
      omega
  refine ⟨fun elems el => ?_, hbool, fun elems => ?_⟩
  · rw [filterInFocus, List.mem_filter, hbool el.line]
  · rw [filterInFocus]
    apply List.filter_eq_self.mpr
    intro el _
    rfl

/-- C9 witness: the amended focus-range filtering evaluated at `s = 2`,
`e = 9`, keeping the element at line `5`. -/
theorem C9_focus_filter_witness :
    (⟨5⟩ : AnalyzedElement) ∈ filterInFocus (some 2) (some 9) [⟨1⟩, ⟨5⟩, ⟨12⟩]
    ∧ (2 : Nat) ≤ 5 ∧ (5 : Nat) ≤ 9 :=
  ⟨((C9_focus_filter 2 9 (by decide)).1 [⟨1⟩, ⟨5⟩, ⟨12⟩] ⟨5⟩).mpr (by decide),
    by decide⟩

/-! ## Rule selection -/

/-- For a rule whose `category` is a genuine `RulePrefix` member, a
pattern matches iff it equals the code, the code starts with it, or it
equals the category tag. -/
theorem matchesPatterns_spec (r : RuleClass) (pats : List String) (c : String)
    (hc : r.category = some c) (hcv : c ∈ rulePrefixValues) :
    RuleRegistry._matches_patterns r pats = true
      ↔ ∃ p ∈ pats, r.code = p ∨ strStartsWith r.code p ∨ p = c := by
  simp only [RuleRegistry._matches_patterns, List.any_eq_true,
    decide_eq_true_eq, hc, Option.some.injEq]
  constructor
  · rintro ⟨p, hp, h | h | ⟨hv, hcp⟩⟩
    exacts [⟨p, hp, .inl h⟩, ⟨p, hp, .inr (.inl h)⟩,
      ⟨p, hp, .inr (.inr hcp.symm)⟩]
  · rintro ⟨p, hp, h | h | h⟩
    exacts [⟨p, hp, .inl h⟩, ⟨p, hp, .inr (.inl h)⟩,
      ⟨p, hp, .inr (.inr ⟨h ▸ hcv, h.symm⟩)⟩]

/-- C5: for every registry of rules and optional select/ignore pattern
lists, a rule (whose category tag is a `RulePrefix` value) is active iff
(select is empty or its code matches some select pattern) and (ignore is
empty or its code matches no ignore pattern) and the rule is enabled,
where a pattern matches iff it equals the code exactly, the code starts
with it, or it equals the category tag. -/
theorem C5_rule_selection (rules : List RuleClass) (select ignore : List String)
    (r : RuleClass) (c : String) (hc : r.category = some c)
    (hcv : c ∈ rulePrefixValues) :
    r ∈ RuleRegistry.get_rules rules select ignore
      ↔ r ∈ rules
        ∧ (select = []
            ∨ ∃ p ∈ select, r.code = p ∨ strStartsWith r.code p ∨ p = c)
        ∧ (ignore = []
            ∨ ¬∃ p ∈ ignore, r.code = p ∨ strStartsWith r.code p ∨ p = c)
        ∧ r.enabled = true := by
  have hm := fun pats => matchesPatterns_spec r pats c hc hcv
  have hmf : ∀ pats : List String,
      RuleRegistry._matches_patterns r pats = false
        ↔ ¬∃ p ∈ pats, r.code = p ∨ strStartsWith r.code p ∨ p = c :=
    fun pats => Bool.eq_false_iff.trans (not_congr (hm pats))
  simp only [RuleRegistry.get_rules]
  by_cases hsel : select.isEmpty
  · rw [if_pos hsel]
    rw [List.isEmpty_iff] at hsel
    by_cases hign : ignore.isEmpty
    · rw [if_pos hign]
      rw [List.isEmpty_iff] at hign
      simp only [List.mem_filter, hsel, hign, eq_self_iff_true, true_or,
        true_and, and_assoc]
    · rw [if_neg hign]
      rw [List.isEmpty_iff] at hign
      simp only [List.mem_filter, Bool.not_eq_true', hmf, hsel, hign,
        eq_self_iff_true, true_or, true_and, false_or, and_assoc]
  · rw [if_neg hsel]
    rw [List.isEmpty_iff] at hsel
    by_cases hign : ignore.isEmpty
    · rw [if_pos hign]
      rw [List.isEmpty_iff] at hign
      simp only [List.mem_filter, hm, hsel, hign, eq_self_iff_true, true_or,
        true_and, false_or, and_assoc]
    · rw [if_neg hign]
      rw [List.isEmpty_iff] at hign
      simp only [List.mem_filter, Bool.not_eq_true', hm, hmf, hsel, hign,
        false_or, and_assoc]

/-- C5 witness: the rule `B001` in category `B` is selected by each of
`select=["B"]`, `["B0"]`, `["B001"]` and excluded by the same values
passed as `ignore`. -/
theorem C5_rule_selection_witness :
    ruleB001 ∈ RuleRegistry.get_rules [ruleB001] ["B"] []
    ∧ ruleB001 ∈ RuleRegistry.get_rules [ruleB001] ["B0"] []
    ∧ ruleB001 ∈ RuleRegistry.get_rules [ruleB001] ["B001"] []
    ∧ ruleB001 ∉ RuleRegistry.get_rules [ruleB001] [] ["B"]
    ∧ ruleB001 ∉ RuleRegistry.get_rules [ruleB001] [] ["B0"]
    ∧ ruleB001 ∉ RuleRegistry.get_rules [ruleB001] [] ["B001"] := by
  refine ⟨?_, ?_, ?_, ?_, ?_, ?_⟩
  · exact (C5_rule_selection [ruleB001] ["B"] [] ruleB001 "B" rfl
      (by decide)).mpr (by decide)
  · exact (C5_rule_selection [ruleB001] ["B0"] [] ruleB001 "B" rfl
      (by decide)).mpr (by decide)
  · exact (C5_rule_selection [ruleB001] ["B001"] [] ruleB001 "B" rfl
      (by decide)).mpr (by decide)
  · exact fun h => absurd ((C5_rule_selection [ruleB001] [] ["B"] ruleB001 "B"
      rfl (by decide)).mp h) (by decide)
  · exact fun h => absurd ((C5_rule_selection [ruleB001] [] ["B0"] ruleB001 "B"
      rfl (by decide)).mp h) (by decide)
  · exact fun h => absurd ((C5_rule_selection [ruleB001] [] ["B001"] ruleB001
      "B" rfl (by decide)).mp h) (by decide)

/-! ## Nesting depth -/

/-- Strong induction over parse-tree nodes via their children. -/
theorem tsnode_strong_ind (P : TSNode → Prop)
    (step : ∀ n : TSNode, (∀ c ∈ n.children, P c) → P n) : ∀ n, P n := by
  have key : ∀ k : Nat, ∀ n : TSNode, sizeOf n = k → P n := by
    intro k
    induction k using Nat.strong_induction_on with
    | _ k ihk =>
      intro n hn
      apply step
      intro c hc
      have hlt : sizeOf c < sizeOf n := by
        cases n with
        | mk t s e tx children =>
          have h1 : sizeOf c < sizeOf children := List.sizeOf_lt_of_mem hc
          simp only [TSNode.mk.sizeOf_spec]
          omega
      exact ihk (sizeOf c) (hn ▸ hlt) c rfl
  exact fun n => key (sizeOf n) n rfl

theorem foldrMax_append (xs ys : List Nat) :
    (xs ++ ys).foldr max 0 = max (xs.foldr max 0) (ys.foldr max 0) := by
  induction xs with
  | nil => simp
  | cons a xs ih => simp [ih, Nat.max_assoc]

theorem foldrMax_flatMap {α : Type} (l : List α) (f : α → List Nat) :
    (l.flatMap f).foldr max 0
      = (l.map fun x => (f x).foldr max 0).foldr max 0 := by
  induction l with
  | nil => simp
  | cons a xs ih => rw [List.flatMap_cons, foldrMax_append, ih, List.map_cons,
      List.foldr_cons]

theorem foldrMax_map_add (k : Nat) (xs : List Nat) (h : xs ≠ []) :
    (xs.map fun x => k + x).foldr max 0 = k + xs.foldr max 0 := by
  induction xs with
  | nil => exact absurd rfl h
  | cons a xs ih =>
    cases xs with
    | nil => simp
    | cons b ys =>
      rw [List.map_cons, List.foldr_cons, List.foldr_cons, ih (by simp)]
      omega

theorem foldlMax_eq {α : Type} (l : List α) (g : α → Nat) (d : Nat) :
    l.foldl (fun m x => max m (g x)) d = max d ((l.map g).foldr max 0) := by
  induction l generalizing d with
  | nil => simp
  | cons a xs ih => simp [ih, Nat.max_assoc]

theorem leafPathCounts_ne_nil : ∀ n : TSNode, leafPathCounts n ≠ [] := by
  apply tsnode_strong_ind
  intro n ihc
  cases n with
  | mk t s e tx children =>
    rw [leafPathCounts]
    by_cases hc : children.isEmpty
    · simp [hc]
    · rw [if_neg hc, List.isEmpty_iff] at *
      intro heq
      obtain ⟨c0, cs, rfl⟩ := List.exists_cons_of_ne_nil hc
      have h0 := List.flatMap_eq_nil_iff.mp heq
        ⟨c0, List.mem_cons_self c0 cs⟩ (List.mem_attach _ _)
      rw [List.map_eq_nil_iff] at h0
      exact ihc c0 (List.mem_cons_self c0 cs) h0

/-- The recurrence satisfied by the spec-side metric: `0` at a leaf, and
one plus-weight step through each child otherwise. -/
theorem specMaxNestingOnPath_rec (t : String) (s e : Nat) (tx : String)
    (children : List TSNode) :
    specMaxNestingOnPath (.mk t s e tx children)
      = (children.map fun c => nestWeight c + specMaxNestingOnPath c).foldr
          max 0 := by
  rw [specMaxNestingOnPath, leafPathCounts]
  by_cases hc : children.isEmpty
  · rw [List.isEmpty_iff] at hc
    subst hc
    simp
  · rw [if_neg hc, foldrMax_flatMap]
    congr 1
    calc (children.attach.map fun c =>
            ((leafPathCounts c.1).map fun k => nestWeight c.1 + k).foldr max 0)
        = children.attach.map fun c =>
            nestWeight c.1 + specMaxNestingOnPath c.1 := by
          apply List.map_congr_left
          intro c _
          exact foldrMax_map_add _ _ (leafPathCounts_ne_nil c.1)
      _ = children.map fun c => nestWeight c + specMaxNestingOnPath c :=
          List.attach_map_val children
            (fun c => nestWeight c + specMaxNestingOnPath c)

/-- `get_depth n d` adds `d` to the spec's maximum path nesting count of
`n`'s subtree. -/
theorem get_depth_eq_spec :
    ∀ n : TSNode, ∀ d : Nat,
      TreeSitterAnalyzer.get_depth n d = d + specMaxNestingOnPath n := by
  apply tsnode_strong_ind (P := fun n =>
    ∀ d : Nat, TreeSitterAnalyzer.get_depth n d = d + specMaxNestingOnPath n)
  intro n ihc d
  cases n with
  | mk t s e tx children =>
    rw [TreeSitterAnalyzer.get_depth, foldlMax_eq, specMaxNestingOnPath_rec]
    have hmap : (children.attach.map fun c =>
          TreeSitterAnalyzer.get_depth c.1
            (if c.1.type_ ∈ TreeSitterAnalyzer.nesting_types then d + 1 else d))
        = children.map fun c => d + (nestWeight c + specMaxNestingOnPath c) := by
      rw [← List.attach_map_val children
        (fun c => d + (nestWeight c + specMaxNestingOnPath c))]
      apply List.map_congr_left
      intro c _
      rw [ihc c.1 c.2]
      rw [nestWeight]
      split
      · omega
      · omega
    rw [hmap]
    cases children with
    | nil => simp
    | cons c0 cs =>
      have hcomp :
          List.map (fun c => d + (nestWeight c + specMaxNestingOnPath c))
              (c0 :: cs)
            = List.map (fun x => d + x)
                (List.map (fun c => nestWeight c + specMaxNestingOnPath c)
                  (c0 :: cs)) := by
        rw [List.map_map]
        rfl
      rw [hcomp, foldrMax_map_add d _ (by simp)]
      omega

/-- C6: for every function-like node, the computed depth metric equals the
maximum nesting depth of control-flow constructs along any root-to-leaf
path of that node's subtree — each control-flow node adds exactly one for
its subtree, independent of sibling branches — and the concrete scenario
(a function with one top-level `if` containing a `for` containing another
`if`) yields depth `3`. -/
theorem C6_nesting_depth :
    (∀ node : TSNode,
      TreeSitterAnalyzer._get_nesting_depth (some node)
        = specMaxNestingOnPath node)
    ∧ TreeSitterAnalyzer._get_nesting_depth (some exampleFunctionNode) = 3 := by
  constructor
  · intro node
    rw [TreeSitterAnalyzer._get_nesting_depth, get_depth_eq_spec node 0]
    omega
  · rw [TreeSitterAnalyzer._get_nesting_depth]
    simp [TreeSitterAnalyzer.get_depth, exampleFunctionNode,
      TreeSitterAnalyzer.nesting_types, TSNode.type_]

/-! ## Hierarchy builder: the flattened forest is a permutation of the
input

The proof works on `Nat` indices into the sorted item list `l`:
`parentIdx` is a function, so every index has at most one parent; the
pre-order flattening of the subtree at `j` contains each index `k` exactly
once when `j` is an ancestor of `k` and never otherwise; and every index
has exactly one root ancestor. -/

theorem parentIdx_lt {l : List HierItem} {k p : Nat}
    (h : parentIdx l k = some p) : p < k := by
  have hmem : p ∈ (List.range k).reverse := List.mem_of_find?_eq_some h
  rw [List.mem_reverse, List.mem_range] at hmem
  exact hmem

theorem childIdxs_mem_iff {l : List HierItem} {j i : Nat} :
    i ∈ childIdxs l j ↔ i < l.length ∧ parentIdx l i = some j := by
  simp [childIdxs, List.mem_filter, List.mem_range]

theorem attach_flatMap {α β : Type} (l : List α) (g : α → List β) :
    (l.attach.flatMap fun c => g c.1) = l.flatMap g := by
  have h1 : (l.attach.map fun c : {x // x ∈ l} => c.1).flatMap g
      = l.attach.flatMap fun c => g c.1 := List.flatMap_map _ g l.attach
  rw [← h1, List.attach_map_subtype_val]

theorem isAncestor_refl (l : List HierItem) (j : Nat) :
    isAncestor l j j = true := by
  rw [isAncestor]
  simp

theorem isAncestor_parent {l : List HierItem} {k p j : Nat}
    (hp : parentIdx l k = some p) (h : isAncestor l j p = true) :
    isAncestor l j k = true := by
  rw [isAncestor]
  by_cases hk : k = j
  · simp [hk]
  · rw [if_neg hk]
    split
    · next heq => rw [heq] at hp; cases hp
    · next p' heq => rw [heq] at hp; cases hp; exact h

theorem isAncestor_inv {l : List HierItem} {j k : Nat}
    (h : isAncestor l j k = true) (hk : k ≠ j) :
    ∃ p, parentIdx l k = some p ∧ isAncestor l j p = true := by
  rw [isAncestor, if_neg hk] at h
  revert h
  split
  · intro h; cases h
  · next p heq => exact fun h => ⟨p, heq, h⟩

theorem isAncestor_le {l : List HierItem} :
    ∀ {k j : Nat}, isAncestor l j k = true → j ≤ k := by
  intro k
  induction k using Nat.strong_induction_on with
  | _ k ih =>
    intro j h
    by_cases hk : k = j
    · omega
    · obtain ⟨p, hp, hjp⟩ := isAncestor_inv h hk
      have hlt := parentIdx_lt hp
      have := ih p hlt hjp
      omega

theorem isAncestor_trans {l : List HierItem} :
    ∀ {k a b : Nat}, isAncestor l a b = true → isAncestor l b k = true →
      isAncestor l a k = true := by
  intro k
  induction k using Nat.strong_induction_on with
  | _ k ih =>
    intro a b hab hbk
    by_cases hk : k = b
    · exact hk ▸ hab
    · obtain ⟨p, hp, hbp⟩ := isAncestor_inv hbk hk
      exact isAncestor_parent hp (ih p (parentIdx_lt hp) hab hbp)

theorem isAncestor_total {l : List HierItem} :
    ∀ {k a b : Nat}, isAncestor l a k = true → isAncestor l b k = true →
      isAncestor l a b = true ∨ isAncestor l b a = true := by
  intro k
  induction k using Nat.strong_induction_on with
  | _ k ih =>
    intro a b ha hb
    by_cases hka : k = a
    · exact Or.inr (hka ▸ hb)
    · by_cases hkb : k = b
      · exact Or.inl (hkb ▸ ha)
      · obtain ⟨p, hp, hap⟩ := isAncestor_inv ha hka
        obtain ⟨p', hp', hbp⟩ := isAncestor_inv hb hkb
        rw [hp] at hp'
        cases hp'
        exact ih p (parentIdx_lt hp) hap hbp

theorem child_ancestor_unique {l : List HierItem} {j i1 i2 k : Nat}
    (h1 : parentIdx l i1 = some j) (h2 : parentIdx l i2 = some j)
    (ha1 : isAncestor l i1 k = true) (ha2 : isAncestor l i2 k = true) :
    i1 = i2 := by
  rcases isAncestor_total ha1 ha2 with h | h
  · by_cases he : i2 = i1
    · exact he.symm
    · obtain ⟨p, hp, hup⟩ := isAncestor_inv h he
      rw [h2] at hp
      cases hp
      have := isAncestor_le hup
      have := parentIdx_lt h1
      omega
  · by_cases he : i1 = i2
    · exact he
    · obtain ⟨p, hp, hup⟩ := isAncestor_inv h he
      rw [h1] at hp
      cases hp
      have := isAncestor_le hup
      have := parentIdx_lt h2
      omega

theorem exists_child_on_chain {l : List HierItem} :
    ∀ {k j : Nat}, isAncestor l j k = true → k ≠ j →
      ∃ i, parentIdx l i = some j ∧ isAncestor l i k = true ∧ i ≤ k := by
  intro k
  induction k using Nat.strong_induction_on with
  | _ k ih =>
    intro j h hk
    obtain ⟨p, hp, hjp⟩ := isAncestor_inv h hk
    by_cases hpj : p = j
    · exact ⟨k, hpj ▸ hp, isAncestor_refl l k, le_refl k⟩
    · obtain ⟨i, hi1, hi2, hi3⟩ := ih p (parentIdx_lt hp) hjp hpj
      exact ⟨i, hi1, isAncestor_parent hp hi2,
        le_of_lt (lt_of_le_of_lt hi3 (parentIdx_lt hp))⟩

theorem countP_eq_one_of_unique {α : Type} {l : List α} {p : α → Bool}
    {a : α} (hn : l.Nodup) (ha : a ∈ l) (hpa : p a = true)
    (huniq : ∀ b ∈ l, p b = true → b = a) : l.countP p = 1 := by
  induction l with
  | nil => cases ha
  | cons x xs ih =>
    rw [List.countP_cons]
    rcases List.mem_cons.mp ha with rfl | hmem
    · have hzero : xs.countP p = 0 := List.countP_eq_zero.mpr fun b hb hpb => by
        have := huniq b (List.mem_cons_of_mem _ hb) hpb
        subst this
        exact (List.nodup_cons.mp hn).1 hb
      rw [hpa, hzero]
      simp
    · have hx : p x = false := by
        rcases hpx : p x with _ | _
        · rfl
        · have := huniq x (List.mem_cons_self x xs) hpx
          subst this
          exact absurd hmem (List.nodup_cons.mp hn).1
      have hone := ih (List.nodup_cons.mp hn).2 hmem
        (fun b hb hpb => huniq b (List.mem_cons_of_mem _ hb) hpb)
      rw [hx, hone]
      simp

theorem sum_map_eq_countP {α : Type} (l : List α) (p : α → Bool)
    (f : α → Nat) (h : ∀ x ∈ l, f x = if p x = true then 1 else 0) :
    (l.map f).sum = l.countP p := by
  induction l with
  | nil => simp
  | cons x xs ih =>
    rw [List.map_cons, List.sum_cons, List.countP_cons,
      ih (fun b hb => h b (List.mem_cons_of_mem _ hb)),
      h x (List.mem_cons_self x xs)]
    split <;> omega

theorem flatMap_congr {α β : Type} {l : List α} {f g : α → List β}
    (h : ∀ x ∈ l, f x = g x) : l.flatMap f = l.flatMap g := by
  induction l with
  | nil => rfl
  | cons x xs ih =>
    rw [List.flatMap_cons, List.flatMap_cons, h x (List.mem_cons_self x xs),
      ih (fun b hb => h b (List.mem_cons_of_mem _ hb))]

theorem childIdxs_nodup (l : List HierItem) (j : Nat) :
    (childIdxs l j).Nodup :=
  List.Nodup.filter _ (List.nodup_range _)

theorem rootIdxs_nodup (l : List HierItem) : (rootIdxs l).Nodup :=
  List.Nodup.filter _ (List.nodup_range _)

theorem rootIdxs_mem_iff {l : List HierItem} {i : Nat} :
    i ∈ rootIdxs l ↔ i < l.length ∧ parentIdx l i = none := by
  simp [rootIdxs, List.mem_filter, List.mem_range]

/-- The pre-order flattening of the subtree at `j` contains an index `k`
(with `k` in bounds) exactly once when `j` is an ancestor of `k`, else not
at all. -/
theorem count_subtree (l : List HierItem) :
    ∀ (j k : Nat), k < l.length →
      List.count k (subtreeIdx l j)
        = if isAncestor l j k = true then 1 else 0 := by
  have main : ∀ (m j k : Nat), l.length - j = m → k < l.length →
      List.count k (subtreeIdx l j)
        = if isAncestor l j k = true then 1 else 0 := by
    intro m
    induction m using Nat.strong_induction_on with
    | _ m ih =>
      intro j k hm hk
      rw [subtreeIdx, attach_flatMap, List.count_cons, List.count_flatMap]
      have hsum : (List.map (List.count k ∘ subtreeIdx l) (childIdxs l j)).sum
          = List.countP (fun i => isAncestor l i k) (childIdxs l j) := by
        apply sum_map_eq_countP
        intro i hi
        obtain ⟨hilen, hip⟩ := childIdxs_mem_iff.mp hi
        have hji := parentIdx_lt hip
        exact ih (l.length - i) (by omega) i k rfl hk
      rw [hsum]
      by_cases hkj : k = j
      · have hanc : isAncestor l j k = true := hkj ▸ isAncestor_refl l j
        have hz : List.countP (fun i => isAncestor l i k) (childIdxs l j)
            = 0 := by
          apply List.countP_eq_zero.mpr
          intro i hi hpi
          obtain ⟨hilen, hip⟩ := childIdxs_mem_iff.mp hi
          have h1 := parentIdx_lt hip
          have h2 := isAncestor_le (by simpa using hpi)
          omega
        rw [hanc, hz, if_pos rfl, hkj]
        simp
      · have hbk : (j == k) = false := by
          simp
          exact fun h => hkj h.symm
        rw [hbk]
        by_cases hanc : isAncestor l j k = true
        · rw [if_pos hanc]
          obtain ⟨i0, hi01, hi02, hi03⟩ := exists_child_on_chain hanc hkj
          have hone : List.countP (fun i => isAncestor l i k) (childIdxs l j)
              = 1 := by
            apply countP_eq_one_of_unique (childIdxs_nodup l j)
              (childIdxs_mem_iff.mpr ⟨by omega, hi01⟩) (by simpa using hi02)
            intro b hb hpb
            obtain ⟨hblen, hbp⟩ := childIdxs_mem_iff.mp hb
            exact child_ancestor_unique hbp hi01 (by simpa using hpb) hi02
          rw [hone]
          simp
        · rw [if_neg hanc]
          have hz : List.countP (fun i => isAncestor l i k) (childIdxs l j)
              = 0 := by
            apply List.countP_eq_zero.mpr
            intro i hi hpi
            obtain ⟨hilen, hip⟩ := childIdxs_mem_iff.mp hi
            have hji : isAncestor l j i = true :=
              isAncestor_parent hip (isAncestor_refl l j)
            exact hanc (isAncestor_trans hji (by simpa using hpi))
          rw [hz]
          simp
  exact fun j k hk => main (l.length - j) j k rfl hk

/-- Every index in a subtree rooted in bounds is in bounds. -/
theorem subtree_mem_lt (l : List HierItem) :
    ∀ (j : Nat), j < l.length → ∀ x ∈ subtreeIdx l j, x < l.length := by
  have main : ∀ (m j : Nat), l.length - j = m → j < l.length →
      ∀ x ∈ subtreeIdx l j, x < l.length := by
    intro m
    induction m using Nat.strong_induction_on with
    | _ m ih =>
      intro j hm hj x hx
      rw [subtreeIdx, attach_flatMap] at hx
      rcases List.mem_cons.mp hx with rfl | hx'
      · exact hj
      · obtain ⟨i, hi, hxi⟩ := List.mem_flatMap.mp hx'
        obtain ⟨hilen, hip⟩ := childIdxs_mem_iff.mp hi
        have hji := parentIdx_lt hip
        exact ih (l.length - i) (by omega) i rfl hilen x hxi
  exact fun j hj x hx => main (l.length - j) j rfl hj x hx

theorem exists_root_ancestor (l : List HierItem) :
    ∀ k : Nat, k < l.length →
      ∃ r, r ∈ rootIdxs l ∧ isAncestor l r k = true := by
  intro k
  induction k using Nat.strong_induction_on with
  | _ k ih =>
    intro hk
    cases hp : parentIdx l k with
    | none => exact ⟨k, rootIdxs_mem_iff.mpr ⟨hk, hp⟩, isAncestor_refl l k⟩
    | some p =>
      have hpk := parentIdx_lt hp
      obtain ⟨r, hr1, hr2⟩ := ih p hpk (by omega)
      exact ⟨r, hr1, isAncestor_parent hp hr2⟩

theorem root_ancestor_unique {l : List HierItem} {r1 r2 k : Nat}
    (h1 : parentIdx l r1 = none) (h2 : parentIdx l r2 = none)
    (ha1 : isAncestor l r1 k = true) (ha2 : isAncestor l r2 k = true) :
    r1 = r2 := by
  rcases isAncestor_total ha1 ha2 with h | h
  · by_cases he : r2 = r1
    · exact he.symm
    · obtain ⟨p, hp, _⟩ := isAncestor_inv h he
      rw [h2] at hp
      cases hp
  · by_cases he : r1 = r2
    · exact he
    · obtain ⟨p, hp, _⟩ := isAncestor_inv h he
      rw [h1] at hp
      cases hp

/-- Index-level statement: the pre-order flattening of the whole forest is
a permutation of `range l.length`. -/
theorem forest_perm (l : List HierItem) :
    ((rootIdxs l).flatMap (subtreeIdx l)).Perm (List.range l.length) := by
  apply List.perm_iff_count.mpr
  intro k
  by_cases hk : k < l.length
  · rw [List.count_flatMap]
    have hsum : (List.map (List.count k ∘ subtreeIdx l) (rootIdxs l)).sum
        = List.countP (fun r => isAncestor l r k) (rootIdxs l) :=
      sum_map_eq_countP _ _ _ (fun r _ => count_subtree l r k hk)
    obtain ⟨r0, hr0, hanc⟩ := exists_root_ancestor l k hk
    have hone : List.countP (fun r => isAncestor l r k) (rootIdxs l) = 1 := by
      apply countP_eq_one_of_unique (rootIdxs_nodup l) hr0 (by simpa using hanc)
      intro b hb hpb
      exact root_ancestor_unique (rootIdxs_mem_iff.mp hb).2
        (rootIdxs_mem_iff.mp hr0).2 (by simpa using hpb) hanc
    rw [hsum, hone,
      List.count_eq_one_of_mem (List.nodup_range _) (List.mem_range.mpr hk)]
  · rw [List.count_eq_zero_of_not_mem, List.count_eq_zero_of_not_mem]
    · rw [List.mem_range]
      omega
    · intro hmem
      obtain ⟨r, hr, hkr⟩ := List.mem_flatMap.mp hmem
      exact hk (subtree_mem_lt l r (rootIdxs_mem_iff.mp hr).1 k hkr)

/-- Flattening the built node at `j` lists exactly the items at the
subtree's indices, in pre-order. -/
theorem flattenNode_nodeAt (l : List HierItem) :
    ∀ j : Nat, flattenNode (nodeAt l j) = (subtreeIdx l j).map (itemAt l) := by
  have main : ∀ (m j : Nat), l.length - j = m →
      flattenNode (nodeAt l j) = (subtreeIdx l j).map (itemAt l) := by
    intro m
    induction m using Nat.strong_induction_on with
    | _ m ih =>
      intro j hm
      rw [nodeAt, flattenNode, subtreeIdx]
      rw [attach_flatMap
        (((childIdxs l j).attach.map fun i => nodeAt l i.1)) flattenNode]
      rw [List.flatMap_map]
      rw [attach_flatMap (childIdxs l j) (fun i => flattenNode (nodeAt l i))]
      rw [List.map_cons, List.map_flatMap]
      congr 1
      rw [attach_flatMap (childIdxs l j) (fun i => (subtreeIdx l i).map (itemAt l))]
      apply flatMap_congr
      intro i hi
      obtain ⟨hilen, hip⟩ := childIdxs_mem_iff.mp hi
      have hji := parentIdx_lt hip
      exact ih (l.length - i) (by omega) i rfl
  exact fun j => main (l.length - j) j rfl

theorem map_itemAt_range (l : List HierItem) :
    (List.range l.length).map (itemAt l) = l := by
  apply List.ext_getElem
  · simp
  · intro n h1 h2
    simp only [List.getElem_map, List.getElem_range]
    exact List.getD_eq_getElem l _ h2

/-- C3: flattening the forest returned by `build_hierarchy` in pre-order
yields a permutation of the input element list — no element dropped, none
duplicated — and no index is a child of two different parents. -/
theorem C3_build_hierarchy_perm (items : List HierItem) :
    (flattenForest (build_hierarchy items)).Perm items
    ∧ ∀ j1 j2 i : Nat, i ∈ childIdxs (sortedItems items) j1 →
        i ∈ childIdxs (sortedItems items) j2 → j1 = j2 := by
  constructor
  · have hl : flattenForest (build_hierarchy items)
        = ((rootIdxs (sortedItems items)).flatMap
            (subtreeIdx (sortedItems items))).map (itemAt (sortedItems items)) := by
      rw [build_hierarchy, flattenForest, List.flatMap_map, List.map_flatMap]
      exact flatMap_congr fun j _ => flattenNode_nodeAt (sortedItems items) j
    rw [hl]
    have hperm :=
      (forest_perm (sortedItems items)).map (itemAt (sortedItems items))
    rw [map_itemAt_range] at hperm
    exact hperm.trans (List.mergeSort_perm items _)
  · intro j1 j2 i h1 h2
    have p1 := (childIdxs_mem_iff.mp h1).2
    have p2 := (childIdxs_mem_iff.mp h2).2
    rw [p1] at p2
    cases p2
    rfl

/-! ## Inheritance resolution: lookup and invariant plumbing -/

theorem lookup_isSome_iff {st : TypeMap} {x : String} :
    (List.lookup x st).isSome = true ↔ x ∈ st.map Prod.fst := by
  induction st with
  | nil => simp
  | cons kv rest ih =>
    rw [List.lookup_cons]
    by_cases hk : kv.1 = x
    · simp [hk]
    · have hb : (x == kv.1) = false := by
        simpa using fun h => hk h.symm
      rw [hb]
      simp only [List.map_cons, List.mem_cons]
      rw [ih]
      constructor
      · exact Or.inr
      · rintro (h | h)
        · exact absurd h.symm hk
        · exact h

theorem lookup_eq_none_iff {st : TypeMap} {x : String} :
    List.lookup x st = none ↔ x ∉ st.map Prod.fst := by
  rw [← lookup_isSome_iff]
  cases List.lookup x st <;> simp

theorem updateType_keys (st : TypeMap) (n : String) (e : EntityDecl) :
    (updateType st n e).map Prod.fst = st.map Prod.fst := by
  induction st with
  | nil => rfl
  | cons kv rest ih =>
    rw [updateType, List.map_cons, List.map_cons, List.map_cons]
    rw [updateType] at ih
    by_cases hk : kv.1 = n
    · rw [if_pos hk, ih, hk]
    · rw [if_neg hk, ih]

theorem updateType_lookup_ne (st : TypeMap) (n x : String) (e : EntityDecl)
    (hx : x ≠ n) : List.lookup x (updateType st n e) = List.lookup x st := by
  induction st with
  | nil => rfl
  | cons kv rest ih =>
    rw [updateType, List.map_cons]
    rw [updateType] at ih
    by_cases hk : kv.1 = n
    · rw [if_pos hk, List.lookup_cons, List.lookup_cons]
      have h1 : (x == n) = false := by simpa using hx
      have h2 : (x == kv.1) = false := by
        simpa using fun h => hx (h.trans hk)
      rw [h1, h2]
      exact ih
    · rw [if_neg hk, List.lookup_cons, List.lookup_cons]
      by_cases hkx : kv.1 = x
      · simp [hkx]
      · have h2 : (x == kv.1) = false := by
          simpa using fun h => hkx h.symm
        rw [h2]
        exact ih

theorem updateType_lookup_self (st : TypeMap) (n : String) (e : EntityDecl)
    (h : n ∈ st.map Prod.fst) :
    List.lookup n (updateType st n e) = some e := by
  induction st with
  | nil => cases h
  | cons kv rest ih =>
    rw [List.map_cons] at h
    rw [updateType, List.map_cons]
    rw [updateType] at ih
    by_cases hk : kv.1 = n
    · rw [if_pos hk, List.lookup_cons]
      simp
    · rw [if_neg hk, List.lookup_cons]
      have h2 : (n == kv.1) = false := by
        simpa using fun hh => hk hh.symm
      rw [h2]
      rcases List.mem_cons.mp h with h3 | h3
      · exact absurd h3.symm hk
      · exact ih h3

theorem beforeIn_append {xs ys : List String} {p n : String}
    (h : beforeIn xs p n) : beforeIn (xs ++ ys) p n := by
  obtain ⟨l1, l2, rfl, hp, hn, hnl⟩ := h
  exact ⟨l1, l2 ++ ys, by rw [List.append_assoc], hp,
    List.mem_append_left _ hn, hnl⟩

theorem RSpec_mono (types₀ : TypeMap) {st st' : TypeMap}
    {res : List String} {δ : List String} {n : String}
    (h : RSpec types₀ st res n)
    (hst : ∀ x ∈ res, List.lookup x st' = List.lookup x st)
    (hn : n ∈ res) : RSpec types₀ st' (res ++ δ) n := by
  cases hl : List.lookup n types₀ with
  | none => simp only [RSpec, hl]
  | some e =>
    simp only [RSpec, hl] at h ⊢
    by_cases hcond : optStrTruthy e.inherits = true
        ∧ (List.lookup (e.inherits.getD "") types₀).isSome = true
    · rw [if_pos hcond] at h
      rw [if_pos hcond]
      obtain ⟨hpr, hbf, pe, hpe, hne⟩ := h
      exact ⟨List.mem_append_left _ hpr, beforeIn_append hbf, pe,
        (hst _ hpr).trans hpe, (hst _ hn).trans hne⟩
    · rw [if_neg hcond] at h
      rw [if_neg hcond]
      exact (hst _ hn).trans h

theorem inherits_stable (types₀ : TypeMap) {st : TypeMap} {res : List String}
    (hinv : StateInv types₀ st res) {n : String} {entity : EntityDecl}
    (hl : List.lookup n st = some entity) :
    ∃ e₀, List.lookup n types₀ = some e₀ ∧ e₀.inherits = entity.inherits := by
  obtain ⟨hkeys, hunres, hgood, hnd⟩ := hinv
  by_cases hres : n ∈ res
  · have hspec := hgood n hres
    cases hl0 : List.lookup n types₀ with
    | none =>
      have : List.lookup n st = none := by
        rw [lookup_eq_none_iff, hkeys, ← lookup_eq_none_iff]
        exact hl0
      rw [this] at hl
      cases hl
    | some e₀ =>
      simp only [RSpec, hl0] at hspec
      by_cases hcond : optStrTruthy e₀.inherits = true
          ∧ (List.lookup (e₀.inherits.getD "") types₀).isSome = true
      · rw [if_pos hcond] at hspec
        obtain ⟨_, _, pe, _, hne⟩ := hspec
        rw [hne] at hl
        cases hl
        exact ⟨e₀, rfl, rfl⟩
      · rw [if_neg hcond] at hspec
        rw [hspec] at hl
        injection hl with hl2
        exact ⟨e₀, rfl, by rw [hl2]⟩
  · have := hunres n hres
    rw [this] at hl
    exact ⟨entity, hl, rfl⟩

theorem nodup_append_singleton {res : List String} {n : String}
    (h : res.Nodup) (hn : n ∉ res) : (res ++ [n]).Nodup := by
  rw [List.nodup_append]
  exact ⟨h, List.nodup_singleton n,
    fun a ha hmem => hn (by rw [List.mem_singleton] at hmem; exact hmem ▸ ha)⟩

/-- The central simulation lemma: a successful `resolve_type` call
preserves the state invariant, only appends fresh names to `resolved`
(none of them already resolved or in progress), resolves its argument, and
never touches an already-resolved entity. -/
theorem resolve_type_ok_spec (types₀ : TypeMap) :
    ∀ (fuel : Nat) (st : TypeMap) (res ip : List String) (n : String)
      {st' : TypeMap} {res' : List String},
      StateInv types₀ st res →
      TypeRegistry.resolve_type fuel st res ip n = .ok (st', res') →
      StateInv types₀ st' res'
        ∧ (∃ δ, res' = res ++ δ ∧ ∀ x ∈ δ, x ∉ res ∧ x ∉ ip)
        ∧ n ∈ res'
        ∧ (∀ x ∈ res, List.lookup x st' = List.lookup x st) := by
  intro fuel
  induction fuel with
  | zero =>
    intro st res ip n st' res' hinv h
    rw [TypeRegistry.resolve_type] at h
    cases h
  | succ fuel ih =>
    intro st res ip n st' res' hinv hok
    obtain ⟨hkeys, hunres, hgood, hnd⟩ := hinv
    rw [TypeRegistry.resolve_type] at hok
    by_cases h1 : n ∈ res
    · rw [if_pos h1] at hok
      injection hok with h2
      injection h2 with ha hb
      subst ha
      subst hb
      exact ⟨⟨hkeys, hunres, hgood, hnd⟩, ⟨[], by simp, by simp⟩, h1,
        fun x _ => rfl⟩
    · rw [if_neg h1] at hok
      by_cases h2 : n ∈ ip
      · rw [if_pos h2] at hok
        cases hok
      · rw [if_neg h2] at hok
        cases hlook : List.lookup n st with
        | none =>
          simp only [hlook] at hok
          injection hok with h3
          injection h3 with ha hb
          subst ha
          subst hb
          refine ⟨⟨hkeys, ?_, ?_, nodup_append_singleton hnd h1⟩,
            ⟨[n], rfl, by simpa using ⟨h1, h2⟩⟩, by simp, fun x _ => rfl⟩
          · intro x hx
            exact hunres x (fun hmem => hx (List.mem_append_left _ hmem))
          · intro x hx
            rcases List.mem_append.mp hx with hx' | hx'
            · exact RSpec_mono types₀ (hgood x hx') (fun y _ => rfl) hx'
            · rw [List.mem_singleton] at hx'
              subst hx'
              have h0 : List.lookup x types₀ = none := by
                rw [← hunres x h1]
                exact hlook
              simp only [RSpec, h0]
        | some entity =>
          simp only [hlook] at hok
          have hl0 : List.lookup n types₀ = some entity := by
            rw [← hunres n h1]
            exact hlook
          cases htr : optStrTruthy entity.inherits with
          | false =>
            simp only [htr, Bool.not_false, if_true] at hok
            injection hok with h3
            injection h3 with ha hb
            subst ha
            subst hb
            refine ⟨⟨hkeys, ?_, ?_, nodup_append_singleton hnd h1⟩,
              ⟨[n], rfl, by simpa using ⟨h1, h2⟩⟩, by simp, fun x _ => rfl⟩
            · intro x hx
              exact hunres x (fun hmem => hx (List.mem_append_left _ hmem))
            · intro x hx
              rcases List.mem_append.mp hx with hx' | hx'
              · exact RSpec_mono types₀ (hgood x hx') (fun y _ => rfl) hx'
              · rw [List.mem_singleton] at hx'
                subst hx'
                simp only [RSpec, hl0]
                rw [if_neg (by rw [htr]; simp)]
                exact hlook
          | true =>
            simp only [htr, Bool.not_true, Bool.false_eq_true, if_false]
              at hok
            cases hpar : List.lookup (entity.inherits.getD "") st with
            | none =>
              simp only [hpar, Option.isNone_none, if_true] at hok
              injection hok with h3
              injection h3 with ha hb
              subst ha
              subst hb
              refine ⟨⟨hkeys, ?_, ?_, nodup_append_singleton hnd h1⟩,
                ⟨[n], rfl, by simpa using ⟨h1, h2⟩⟩, by simp, fun x _ => rfl⟩
              · intro x hx
                exact hunres x (fun hmem => hx (List.mem_append_left _ hmem))
              · intro x hx
                rcases List.mem_append.mp hx with hx' | hx'
                · exact RSpec_mono types₀ (hgood x hx') (fun y _ => rfl) hx'
                · rw [List.mem_singleton] at hx'
                  subst hx'
                  simp only [RSpec, hl0]
                  have hpar0 : (List.lookup (entity.inherits.getD "")
                      types₀).isSome = false := by
                    have : List.lookup (entity.inherits.getD "") types₀
                        = none := by
                      rw [lookup_eq_none_iff, ← hkeys, ← lookup_eq_none_iff]
                      exact hpar
                    rw [this]
                    rfl
                  rw [if_neg (by rw [hpar0]; simp)]
                  exact hlook
            | some ppe =>
              simp only [hpar, Option.isNone_some, Bool.false_eq_true,
                if_false] at hok
              cases hrec : TypeRegistry.resolve_type fuel st res (n :: ip)
                  (entity.inherits.getD "") with
              | error e =>
                rw [hrec] at hok
                cases hok
              | ok pr =>
                obtain ⟨st1, res1⟩ := pr
                rw [hrec] at hok
                simp only at hok
                obtain ⟨⟨hkeys1, hunres1, hgood1, hnd1⟩,
                  ⟨δ1, hres1, hfresh1⟩, hpmem, hfrozen1⟩ :=
                  ih st res (n :: ip) (entity.inherits.getD "")
                    ⟨hkeys, hunres, hgood, hnd⟩ hrec
                have hn1 : n ∉ res1 := by
                  rw [hres1]
                  intro hmem
                  rcases List.mem_append.mp hmem with hx | hx
                  · exact h1 hx
                  · exact (hfresh1 n hx).2 (List.mem_cons_self n ip)
                have hnst1 : List.lookup n st1 = some entity := by
                  rw [hunres1 n hn1]
                  exact hl0
                have hpkeys : (List.lookup (entity.inherits.getD "")
                    st1).isSome = true := by
                  rw [lookup_isSome_iff, hkeys1, ← hkeys,
                    ← lookup_isSome_iff, hpar]
                  rfl
                obtain ⟨pe, hpe⟩ := Option.isSome_iff_exists.mp hpkeys
                have hpn : entity.inherits.getD "" ≠ n := by
                  intro hcontra
                  rw [hcontra] at hpmem
                  exact hn1 hpmem
                rw [hpe] at hok
                simp only [Option.getD_some] at hok
                injection hok with h3
                injection h3 with ha hb
                subst ha
                subst hb
                have hlookup_upd_ne : ∀ x, x ≠ n →
                    List.lookup x (updateType st1 n (mergeEntity pe entity))
                      = List.lookup x st1 :=
                  fun x hx => updateType_lookup_ne st1 n x _ hx
                have hself : List.lookup n
                    (updateType st1 n (mergeEntity pe entity))
                      = some (mergeEntity pe entity) :=
                  updateType_lookup_self st1 n _
                    (lookup_isSome_iff.mp (by rw [hnst1]; rfl))
                refine ⟨⟨?_, ?_, ?_, nodup_append_singleton hnd1 hn1⟩,
                  ⟨δ1 ++ [n], by rw [hres1, List.append_assoc], ?_⟩,
                  by simp, ?_⟩
                · rw [KeysEq, updateType_keys]
                  exact hkeys1
                · intro x hx
                  have hxn : x ≠ n := fun hc =>
                    hx (hc ▸ List.mem_append_right _ (List.mem_singleton.mpr
                      rfl))
                  rw [hlookup_upd_ne x hxn]
                  exact hunres1 x
                    (fun hmem => hx (List.mem_append_left _ hmem))
                · intro x hx
                  rcases List.mem_append.mp hx with hx' | hx'
                  · have hxn : x ≠ n := fun hc => hn1 (hc ▸ hx')
                    exact RSpec_mono types₀ (hgood1 x hx')
                      (fun y hy => hlookup_upd_ne y
                        (fun hc => hn1 (hc ▸ hy))) hx'
                  · rw [List.mem_singleton] at hx'
                    rw [hx']
                    simp only [RSpec, hl0]
                    have hpar0 : (List.lookup (entity.inherits.getD "")
                        types₀).isSome = true := by
                      rw [lookup_isSome_iff, ← hkeys, ← lookup_isSome_iff,
                        hpar]
                      rfl
                    rw [if_pos ⟨htr, hpar0⟩]
                    refine ⟨List.mem_append_left _ hpmem,
                      ⟨res1, [n], rfl, hpmem, List.mem_singleton.mpr rfl,
                        hn1⟩, pe, ?_, ?_⟩
                    · rw [hlookup_upd_ne _ hpn]
                      exact hpe
                    · exact hself
                · intro x hx
                  rcases List.mem_append.mp hx with hx' | hx'
                  · exact ⟨(hfresh1 x hx').1,
                      fun hc => (hfresh1 x hx').2 (List.mem_cons_of_mem _ hc)⟩
                  · rw [List.mem_singleton] at hx'
                    subst hx'
                    exact ⟨h1, h2⟩
                · intro x hx
                  have hxn : x ≠ n := fun hc => h1 (hc ▸ hx)
                  rw [hlookup_upd_ne x hxn]
                  exact hfrozen1 x hx

/-! ## Error-freedom of the resolution walk -/

theorem parentOf_inv {types₀ : TypeMap} {x y : String}
    (h : parentOf types₀ x = some y) :
    ∃ e, List.lookup x types₀ = some e ∧ optStrTruthy e.inherits = true
      ∧ e.inherits.getD "" = y
      ∧ (List.lookup y types₀).isSome = true := by
  cases hl : List.lookup x types₀ with
  | none =>
    simp only [parentOf, hl] at h
    exact Option.noConfusion h
  | some e =>
    simp only [parentOf, hl] at h
    by_cases htr : optStrTruthy e.inherits = true
    · rw [if_pos htr] at h
      by_cases hs : (List.lookup (e.inherits.getD "") types₀).isSome = true
      · rw [if_pos hs] at h
        injection h with h2
        exact ⟨e, rfl, htr, h2, h2 ▸ hs⟩
      · rw [if_neg hs] at h
        cases h
    · rw [if_neg htr] at h
      cases h

theorem parentOf_intro {types₀ : TypeMap} {n : String} {e : EntityDecl}
    (hl : List.lookup n types₀ = some e)
    (htr : optStrTruthy e.inherits = true)
    (hs : (List.lookup (e.inherits.getD "") types₀).isSome = true) :
    parentOf types₀ n = some (e.inherits.getD "") := by
  simp only [parentOf, hl]
  rw [if_pos htr, if_pos hs]

theorem reachesIn_snoc {types₀ : TypeMap} :
    ∀ {k : Nat} {x a c : String}, reachesIn types₀ k x a →
      parentOf types₀ a = some c → reachesIn types₀ (k + 1) x c := by
  intro k
  induction k with
  | zero =>
    intro x a c hr hp
    rw [reachesIn] at hr
    exact ⟨c, hr ▸ hp, rfl⟩
  | succ k ih =>
    intro x a c hr hp
    obtain ⟨d, hd, hr'⟩ := hr
    exact ⟨d, hd, ih hr' hp⟩

theorem ipChainTo_reaches {types₀ : TypeMap} :
    ∀ (ip : List String) (m : String), ipChainTo types₀ ip m →
      ∀ x ∈ ip, ∃ k, 1 ≤ k ∧ k ≤ ip.length ∧ reachesIn types₀ k x m := by
  intro ip
  induction ip with
  | nil => intro m _ x hx; cases hx
  | cons a rest ih =>
    intro m hchain x hx
    obtain ⟨hlink, hrest⟩ := hchain
    rcases List.mem_cons.mp hx with rfl | hx'
    · exact ⟨1, le_refl 1, by simp, ⟨m, hlink, rfl⟩⟩
    · obtain ⟨k, hk1, hk2, hkr⟩ := ih a hrest x hx'
      refine ⟨k + 1, by omega, ?_, reachesIn_snoc hkr hlink⟩
      simp only [List.length_cons]
      omega

theorem reachesIn_mem_ancestors {types₀ : TypeMap} :
    ∀ (k : Nat) (a b : String) (fuel : Nat), 1 ≤ k → k ≤ fuel →
      reachesIn types₀ k a b → b ∈ ancestorsUpTo types₀ fuel a := by
  intro k
  induction k with
  | zero => intro a b fuel h1 _ _; omega
  | succ k ih =>
    intro a b fuel _ hle hr
    obtain ⟨c, hc, hr'⟩ := hr
    cases fuel with
    | zero => omega
    | succ fuel =>
      rw [ancestorsUpTo]
      simp only [hc]
      cases k with
      | zero =>
        rw [reachesIn] at hr'
        exact hr' ▸ List.mem_cons_self c _
      | succ k =>
        exact List.mem_cons_of_mem c
          (ih c b fuel (by omega) (by omega) hr')

theorem ipChainTo_mem_keys {types₀ : TypeMap} :
    ∀ (ip : List String) (m : String), ipChainTo types₀ ip m →
      ∀ x ∈ ip, x ∈ types₀.map Prod.fst := by
  intro ip
  induction ip with
  | nil => intro m _ x hx; cases hx
  | cons a rest ih =>
    intro m hchain x hx
    obtain ⟨hlink, hrest⟩ := hchain
    rcases List.mem_cons.mp hx with rfl | hx'
    · obtain ⟨e, hl, _⟩ := parentOf_inv hlink
      exact lookup_isSome_iff.mp (by rw [hl]; rfl)
    · exact ih a hrest x hx'

theorem filter_notMem_cons_length :
    ∀ (A : List String), A.Nodup → ∀ (n : String) (ip : List String),
      n ∈ A → n ∉ ip →
      (A.filter fun x => decide (x ∉ n :: ip)).length + 1
        = (A.filter fun x => decide (x ∉ ip)).length := by
  intro A
  induction A with
  | nil => intro _ n ip h _; cases h
  | cons a A ih =>
    intro hnd n ip hnA hnip
    obtain ⟨ha, hA⟩ := List.nodup_cons.mp hnd
    by_cases han : a = n
    · subst han
      have hcong : A.filter (fun x => decide (x ∉ a :: ip))
          = A.filter (fun x => decide (x ∉ ip)) := by
        apply List.filter_congr
        intro x hx
        have hxa : x ≠ a := fun hc => ha (hc ▸ hx)
        simp [hxa]
      rw [List.filter_cons, List.filter_cons, hcong]
      have h1 : (decide (a ∉ a :: ip)) = false := by simp
      have h2 : (decide (a ∉ ip)) = true := by simpa using hnip
      rw [h1, h2]
      simp
    · have hnA' : n ∈ A := by
        rcases List.mem_cons.mp hnA with h | h
        · exact absurd h.symm han
        · exact h
      rw [List.filter_cons, List.filter_cons]
      by_cases haip : a ∈ ip
      · have h2 : (decide (a ∉ n :: ip)) = false := by simp [haip]
        have h3 : (decide (a ∉ ip)) = false := by simpa using haip
        rw [h2, h3]
        simp only [Bool.false_eq_true, if_false]
        exact ih hA n ip hnA' hnip
      · have h2 : (decide (a ∉ n :: ip)) = true := by
          simp [haip]
          exact fun hc => absurd hc han
        have h3 : (decide (a ∉ ip)) = true := by simpa using haip
        rw [h2, h3]
        have := ih hA n ip hnA' hnip
        simp only [if_true]
        simp only [List.length_cons]
        omega

/-- With fuel exceeding the number of distinct registered names not on the
`in_progress` stack, `resolve_type` never exhausts its fuel. -/
theorem resolve_type_no_fuel (st : TypeMap) :
    ∀ (fuel : Nat) (res ip : List String) (n : String),
      ((st.map Prod.fst).dedup.filter fun x => decide (x ∉ ip)).length
          < fuel →
      TypeRegistry.resolve_type fuel st res ip n ≠ .error .outOfFuel := by
  intro fuel
  induction fuel with
  | zero => intro res ip n hcount; omega
  | succ fuel ih =>
    intro res ip n hcount herr
    rw [TypeRegistry.resolve_type] at herr
    by_cases h1 : n ∈ res
    · rw [if_pos h1] at herr
      cases herr
    · rw [if_neg h1] at herr
      by_cases h2 : n ∈ ip
      · rw [if_pos h2] at herr
        injection herr with h3
        cases h3
      · rw [if_neg h2] at herr
        cases hlook : List.lookup n st with
        | none =>
          simp only [hlook] at herr
          cases herr
        | some entity =>
          simp only [hlook] at herr
          cases htr : optStrTruthy entity.inherits with
          | false =>
            simp only [htr, Bool.not_false, if_true] at herr
            cases herr
          | true =>
            simp only [htr, Bool.not_true, Bool.false_eq_true, if_false]
              at herr
            cases hpar : List.lookup (entity.inherits.getD "") st with
            | none =>
              simp only [hpar, Option.isNone_none, if_true] at herr
              cases herr
            | some ppe =>
              simp only [hpar, Option.isNone_some, Bool.false_eq_true,
                if_false] at herr
              cases hrec : TypeRegistry.resolve_type fuel st res (n :: ip)
                  (entity.inherits.getD "") with
              | ok pr =>
                rw [hrec] at herr
                cases herr
              | error e =>
                rw [hrec] at herr
                injection herr with h3
                subst h3
                have hnk : n ∈ (st.map Prod.fst).dedup :=
                  List.mem_dedup.mpr (lookup_isSome_iff.mp
                    (by rw [hlook]; rfl))
                have hstep := filter_notMem_cons_length
                  (st.map Prod.fst).dedup (List.nodup_dedup _) n ip hnk h2
                exact ih res (n :: ip) (entity.inherits.getD "")
                  (by omega) hrec

/-- Under an acyclic registry, `resolve_type` never reports a circular
inheritance (the `in_progress` stack is always a `parentOf` chain, so a
hit would exhibit a genuine cycle). -/
theorem resolve_type_no_cycle (types₀ : TypeMap)
    (hacyc : acyclicTypes types₀) :
    ∀ (fuel : Nat) (st : TypeMap) (res ip : List String) (n m : String),
      StateInv types₀ st res → ipChainTo types₀ ip n → ip.Nodup →
      TypeRegistry.resolve_type fuel st res ip n ≠ .error (.circular m) := by
  intro fuel
  induction fuel with
  | zero =>
    intro st res ip n m _ _ _ herr
    rw [TypeRegistry.resolve_type] at herr
    injection herr with h3
    cases h3
  | succ fuel ih =>
    intro st res ip n m hinv hchain hnd herr
    rw [TypeRegistry.resolve_type] at herr
    by_cases h1 : n ∈ res
    · rw [if_pos h1] at herr
      cases herr
    · rw [if_neg h1] at herr
      by_cases h2 : n ∈ ip
      · -- a genuine cycle: `n`'s chain through `ip` returns to `n`
        exfalso
        have hmemkeys := ipChainTo_mem_keys ip n hchain
        have hsub : ip.toFinset ⊆ (types₀.map Prod.fst).toFinset :=
          fun x hx => List.mem_toFinset.mpr
            (hmemkeys x (List.mem_toFinset.mp hx))
        have hlen : ip.length ≤ types₀.length := by
          have hc1 : ip.toFinset.card = ip.length :=
            List.toFinset_card_of_nodup hnd
          have hc2 := Finset.card_le_card hsub
          have hc3 := List.toFinset_card_le (types₀.map Prod.fst)
          rw [List.length_map] at hc3
          omega
        obtain ⟨k, hk1, hk2, hkr⟩ := ipChainTo_reaches ip n hchain n h2
        have hmem := reachesIn_mem_ancestors k n n types₀.length hk1
          (by omega) hkr
        exact hacyc n (hmemkeys n h2) hmem
      · rw [if_neg h2] at herr
        cases hlook : List.lookup n st with
        | none =>
          simp only [hlook] at herr
          cases herr
        | some entity =>
          simp only [hlook] at herr
          cases htr : optStrTruthy entity.inherits with
          | false =>
            simp only [htr, Bool.not_false, if_true] at herr
            cases herr
          | true =>
            simp only [htr, Bool.not_true, Bool.false_eq_true, if_false]
              at herr
            cases hpar : List.lookup (entity.inherits.getD "") st with
            | none =>
              simp only [hpar, Option.isNone_none, if_true] at herr
              cases herr
            | some ppe =>
              simp only [hpar, Option.isNone_some, Bool.false_eq_true,
                if_false] at herr
              cases hrec : TypeRegistry.resolve_type fuel st res (n :: ip)
                  (entity.inherits.getD "") with
              | ok pr =>
                rw [hrec] at herr
                cases herr
              | error e =>
                rw [hrec] at herr
                injection herr with h3
                subst h3
                obtain ⟨e₀, hl0, hinh⟩ := inherits_stable types₀ hinv hlook
                have htr0 : optStrTruthy e₀.inherits = true := by
                  rw [hinh]
                  exact htr
                have hs0 : (List.lookup (e₀.inherits.getD "")
                    types₀).isSome = true := by
                  rw [hinh, lookup_isSome_iff, ← hinv.1,
                    ← lookup_isSome_iff, hpar]
                  rfl
                have hpOf : parentOf types₀ n
                    = some (entity.inherits.getD "") := by
                  have := parentOf_intro hl0 htr0 hs0
                  rw [hinh] at this
                  exact this
                exact ih st res (n :: ip) (entity.inherits.getD "") m hinv
                  ⟨hpOf, hchain⟩ (List.nodup_cons.mpr ⟨h2, hnd⟩) hrec

/-- No member of a `parentOf`-closed set of names (such as a cycle's
members) is ever added to the `resolved` set by a successful call:
resolving one would require its parent — another member — to have been
resolved first. -/
theorem resolve_type_S_free (types₀ : TypeMap) (S : List String)
    (hSclosed : ∀ x ∈ S, ∃ y ∈ S, parentOf types₀ x = some y) :
    ∀ (fuel : Nat) (st : TypeMap) (res ip : List String) (n : String)
      {st' : TypeMap} {res' : List String},
      StateInv types₀ st res → (∀ x ∈ S, x ∉ res) →
      TypeRegistry.resolve_type fuel st res ip n = .ok (st', res') →
      ∀ x ∈ S, x ∉ res' := by
  intro fuel
  induction fuel with
  | zero =>
    intro st res ip n st' res' _ _ h
    rw [TypeRegistry.resolve_type] at h
    cases h
  | succ fuel ih =>
    intro st res ip n st' res' hinv hSfree hok
    obtain ⟨hkeys, hunres, hgood, hnd⟩ := hinv
    rw [TypeRegistry.resolve_type] at hok
    by_cases h1 : n ∈ res
    · rw [if_pos h1] at hok
      injection hok with h2
      injection h2 with ha hb
      subst hb
      exact hSfree
    · rw [if_neg h1] at hok
      by_cases h2 : n ∈ ip
      · rw [if_pos h2] at hok
        cases hok
      · rw [if_neg h2] at hok
        have hnS : n ∉ S ∨ ∃ e₀, List.lookup n types₀ = some e₀ := by
          by_cases hn : n ∈ S
          · obtain ⟨y, _, hpo⟩ := hSclosed n hn
            obtain ⟨e₀, hl0, _⟩ := parentOf_inv hpo
            exact Or.inr ⟨e₀, hl0⟩
          · exact Or.inl hn
        cases hlook : List.lookup n st with
        | none =>
          simp only [hlook] at hok
          injection hok with h3
          injection h3 with ha hb
          subst hb
          intro x hxS hmem
          rcases List.mem_append.mp hmem with hmem' | hmem'
          · exact hSfree x hxS hmem'
          · rw [List.mem_singleton] at hmem'
            subst hmem'
            obtain ⟨y, _, hpo⟩ := hSclosed x hxS
            obtain ⟨e₀, hl0, _⟩ := parentOf_inv hpo
            rw [← hunres x h1, hlook] at hl0
            cases hl0
        | some entity =>
          simp only [hlook] at hok
          have hl0 : List.lookup n types₀ = some entity := by
            rw [← hunres n h1]
            exact hlook
          cases htr : optStrTruthy entity.inherits with
          | false =>
            simp only [htr, Bool.not_false, if_true] at hok
            injection hok with h3
            injection h3 with ha hb
            subst hb
            intro x hxS hmem
            rcases List.mem_append.mp hmem with hmem' | hmem'
            · exact hSfree x hxS hmem'
            · rw [List.mem_singleton] at hmem'
              subst hmem'
              obtain ⟨y, _, hpo⟩ := hSclosed x hxS
              obtain ⟨e₀, hl0', htr0, _⟩ := parentOf_inv hpo
              rw [hl0] at hl0'
              injection hl0' with he
              rw [← he, htr] at htr0
              cases htr0
          | true =>
            simp only [htr, Bool.not_true, Bool.false_eq_true, if_false]
              at hok
            cases hpar : List.lookup (entity.inherits.getD "") st with
            | none =>
              simp only [hpar, Option.isNone_none, if_true] at hok
              injection hok with h3
              injection h3 with ha hb
              subst hb
              intro x hxS hmem
              rcases List.mem_append.mp hmem with hmem' | hmem'
              · exact hSfree x hxS hmem'
              · rw [List.mem_singleton] at hmem'
                subst hmem'
                obtain ⟨y, _, hpo⟩ := hSclosed x hxS
                obtain ⟨e₀, hl0', _, hgetD, hys⟩ := parentOf_inv hpo
                rw [hl0] at hl0'
                injection hl0' with he
                subst he
                rw [hgetD] at hpar
                have : List.lookup y types₀ = none := by
                  rw [lookup_eq_none_iff, ← hkeys, ← lookup_eq_none_iff]
                  exact hpar
                rw [this] at hys
                cases hys
            | some ppe =>
              simp only [hpar, Option.isNone_some, Bool.false_eq_true,
                if_false] at hok
              cases hrec : TypeRegistry.resolve_type fuel st res (n :: ip)
                  (entity.inherits.getD "") with
              | error e =>
                rw [hrec] at hok
                cases hok
              | ok pr =>
                obtain ⟨st1, res1⟩ := pr
                rw [hrec] at hok
                simp only at hok
                have hS1 : ∀ x ∈ S, x ∉ res1 :=
                  ih st res (n :: ip) (entity.inherits.getD "")
                    ⟨hkeys, hunres, hgood, hnd⟩ hSfree hrec
                obtain ⟨_, _, hpmem, _⟩ :=
                  resolve_type_ok_spec types₀ fuel st res (n :: ip)
                    (entity.inherits.getD "")
                    ⟨hkeys, hunres, hgood, hnd⟩ hrec
                cases hpe : List.lookup (entity.inherits.getD "") st1 with
                | none =>
                  rw [hpe] at hok
                  simp only [Option.getD_none] at hok
                  injection hok with h3
                  injection h3 with ha hb
                  subst hb
                  intro x hxS hmem
                  rcases List.mem_append.mp hmem with hmem' | hmem'
                  · exact hS1 x hxS hmem'
                  · rw [List.mem_singleton] at hmem'
                    subst hmem'
                    obtain ⟨y, hyS, hpo⟩ := hSclosed x hxS
                    obtain ⟨e₀, hl0', _, hgetD, _⟩ := parentOf_inv hpo
                    rw [hl0] at hl0'
                    injection hl0' with he
                    subst he
                    rw [hgetD] at hpmem
                    exact hS1 y hyS hpmem
                | some pe =>
                  rw [hpe] at hok
                  simp only [Option.getD_some] at hok
                  injection hok with h3
                  injection h3 with ha hb
                  subst hb
                  intro x hxS hmem
                  rcases List.mem_append.mp hmem with hmem' | hmem'
                  · exact hS1 x hxS hmem'
                  · rw [List.mem_singleton] at hmem'
                    subst hmem'
                    obtain ⟨y, hyS, hpo⟩ := hSclosed x hxS
                    obtain ⟨e₀, hl0', _, hgetD, _⟩ := parentOf_inv hpo
                    rw [hl0] at hl0'
                    injection hl0' with he
                    subst he
                    rw [hgetD] at hpmem
                    exact hS1 y hyS hpmem

/-! ## The top-level `resolve_inheritance` fold -/

theorem except_bind_ok {ε α β : Type} (a : α) (f : α → Except ε β) :
    ((Except.ok a : Except ε α) >>= f) = f a := rfl

theorem except_bind_error {ε α β : Type} (e : ε) (f : α → Except ε β) :
    ((Except.error e : Except ε α) >>= f) = .error e := rfl

/-- The registry fold `resolve_inheritance` performs, as an explicit
function of the remaining names and the accumulated state. -/
theorem foldlM_resolve_ok (types₀ : TypeMap) :
    ∀ (names : List String) (st : TypeMap) (res : List String)
      {st' : TypeMap} {res' : List String},
      StateInv types₀ st res →
      (names.foldlM (fun acc type_name =>
          TypeRegistry.resolve_type (types₀.length + 1) acc.1 acc.2 []
            type_name) (st, res)) = .ok (st', res') →
      StateInv types₀ st' res' ∧ (∀ k ∈ names, k ∈ res')
        ∧ ∃ δ, res' = res ++ δ := by
  intro names
  induction names with
  | nil =>
    intro st res st' res' hinv hok
    rw [List.foldlM_nil] at hok
    injection hok with h2
    injection h2 with ha hb
    subst ha
    subst hb
    exact ⟨hinv, fun k hk => absurd hk (List.not_mem_nil k), [], by simp⟩
  | cons a names ih =>
    intro st res st' res' hinv hok
    rw [List.foldlM_cons] at hok
    cases hstep : TypeRegistry.resolve_type (types₀.length + 1) st res []
        a with
    | error e =>
      rw [hstep, except_bind_error] at hok
      cases hok
    | ok pr =>
      obtain ⟨st1, res1⟩ := pr
      rw [hstep, except_bind_ok] at hok
      obtain ⟨hinv1, ⟨δ1, hres1, _⟩, hamem, _⟩ :=
        resolve_type_ok_spec types₀ (types₀.length + 1) st res [] a hinv
          hstep
      obtain ⟨hinv', hall, δ2, hres2⟩ := ih st1 res1 hinv1 hok
      refine ⟨hinv', ?_, δ1 ++ δ2, by rw [hres2, hres1, List.append_assoc]⟩
      intro k hk
      rcases List.mem_cons.mp hk with rfl | hk'
      · rw [hres2]
        exact List.mem_append_left _ hamem
      · exact hall k hk'

/-- An error coming out of the fold is always a circular-inheritance
error: the fuel `types₀.length + 1` provably never runs out. -/
theorem foldlM_resolve_error (types₀ : TypeMap) :
    ∀ (names : List String) (st : TypeMap) (res : List String)
      (e : ResolveErr),
      StateInv types₀ st res →
      (names.foldlM (fun acc type_name =>
          TypeRegistry.resolve_type (types₀.length + 1) acc.1 acc.2 []
            type_name) (st, res)) = .error e →
      ∃ m, e = .circular m := by
  intro names
  induction names with
  | nil =>
    intro st res e _ h
    rw [List.foldlM_nil] at h
    cases h
  | cons a names ih =>
    intro st res e hinv hok
    rw [List.foldlM_cons] at hok
    cases hstep : TypeRegistry.resolve_type (types₀.length + 1) st res []
        a with
    | error e' =>
      rw [hstep, except_bind_error] at hok
      injection hok with h2
      subst h2
      cases e' with
      | circular m => exact ⟨m, rfl⟩
      | outOfFuel =>
        exfalso
        have hfT : (st.map Prod.fst).dedup.filter
            (fun x => decide (x ∉ ([] : List String)))
              = (st.map Prod.fst).dedup :=
          List.filter_eq_self.mpr (fun x _ => by simp)
        have hcount : ((st.map Prod.fst).dedup.filter
            (fun x => decide (x ∉ ([] : List String)))).length
              < types₀.length + 1 := by
          rw [hfT]
          have h1 := (List.dedup_sublist (st.map Prod.fst)).length_le
          have h2 : (st.map Prod.fst).length = types₀.length := by
            rw [hinv.1, List.length_map]
          omega
        exact resolve_type_no_fuel st (types₀.length + 1) res [] a hcount
          hstep
    | ok pr =>
      obtain ⟨st1, res1⟩ := pr
      rw [hstep, except_bind_ok] at hok
      obtain ⟨hinv1, _, _, _⟩ :=
        resolve_type_ok_spec types₀ (types₀.length + 1) st res [] a hinv
          hstep
      exact ih st1 res1 e hinv1 hok

/-- Under an acyclic registry the fold cannot fail at all. -/
theorem foldlM_resolve_no_error (types₀ : TypeMap)
    (hacyc : acyclicTypes types₀) :
    ∀ (names : List String) (st : TypeMap) (res : List String)
      (e : ResolveErr),
      StateInv types₀ st res →
      (names.foldlM (fun acc type_name =>
          TypeRegistry.resolve_type (types₀.length + 1) acc.1 acc.2 []
            type_name) (st, res)) ≠ .error e := by
  intro names
  induction names with
  | nil =>
    intro st res e _ h
    rw [List.foldlM_nil] at h
    cases h
  | cons a names ih =>
    intro st res e hinv hok
    rw [List.foldlM_cons] at hok
    cases hstep : TypeRegistry.resolve_type (types₀.length + 1) st res []
        a with
    | error e' =>
      exfalso
      rw [hstep, except_bind_error] at hok
      injection hok with h2
      subst h2
      cases e' with
      | circular m =>
        exact resolve_type_no_cycle types₀ hacyc (types₀.length + 1) st res
          [] a m hinv trivial List.nodup_nil hstep
      | outOfFuel =>
        have hfT : (st.map Prod.fst).dedup.filter
            (fun x => decide (x ∉ ([] : List String)))
              = (st.map Prod.fst).dedup :=
          List.filter_eq_self.mpr (fun x _ => by simp)
        have hcount : ((st.map Prod.fst).dedup.filter
            (fun x => decide (x ∉ ([] : List String)))).length
              < types₀.length + 1 := by
          rw [hfT]
          have h1 := (List.dedup_sublist (st.map Prod.fst)).length_le
          have h2 : (st.map Prod.fst).length = types₀.length := by
            rw [hinv.1, List.length_map]
          omega
        exact resolve_type_no_fuel st (types₀.length + 1) res [] a hcount
          hstep
    | ok pr =>
      obtain ⟨st1, res1⟩ := pr
      rw [hstep, except_bind_ok] at hok
      obtain ⟨hinv1, _, _, _⟩ :=
        resolve_type_ok_spec types₀ (types₀.length + 1) st res [] a hinv
          hstep
      exact ih st1 res1 e hinv1 hok

theorem foldlM_resolve_S_free (types₀ : TypeMap) (S : List String)
    (hSclosed : ∀ x ∈ S, ∃ y ∈ S, parentOf types₀ x = some y) :
    ∀ (names : List String) (st : TypeMap) (res : List String)
      {st' : TypeMap} {res' : List String},
      StateInv types₀ st res → (∀ x ∈ S, x ∉ res) →
      (names.foldlM (fun acc type_name =>
          TypeRegistry.resolve_type (types₀.length + 1) acc.1 acc.2 []
            type_name) (st, res)) = .ok (st', res') →
      ∀ x ∈ S, x ∉ res' := by
  intro names
  induction names with
  | nil =>
    intro st res st' res' _ hSfree hok
    rw [List.foldlM_nil] at hok
    injection hok with h2
    injection h2 with ha hb
    subst hb
    exact hSfree
  | cons a names ih =>
    intro st res st' res' hinv hSfree hok
    rw [List.foldlM_cons] at hok
    cases hstep : TypeRegistry.resolve_type (types₀.length + 1) st res []
        a with
    | error e =>
      rw [hstep, except_bind_error] at hok
      cases hok
    | ok pr =>
      obtain ⟨st1, res1⟩ := pr
      rw [hstep, except_bind_ok] at hok
      obtain ⟨hinv1, _, _, _⟩ :=
        resolve_type_ok_spec types₀ (types₀.length + 1) st res [] a hinv
          hstep
      exact ih st1 res1 hinv1
        (resolve_type_S_free types₀ S hSclosed (types₀.length + 1) st res
          [] a hinv hSfree hstep) hok

theorem chainLinks_mem (types₀ : TypeMap) :
    ∀ (c : List String) (tgt : String), chainLinks types₀ c tgt →
      ∀ x ∈ c, ∃ y, parentOf types₀ x = some y ∧ (y ∈ c ∨ y = tgt) := by
  intro c
  induction c with
  | nil => intro tgt _ x hx; cases hx
  | cons a rest ih =>
    intro tgt hch x hx
    cases rest with
    | nil =>
      rcases List.mem_cons.mp hx with rfl | hx'
      · exact ⟨tgt, hch, Or.inr rfl⟩
      · cases hx'
    | cons b rest' =>
      obtain ⟨hab, hch'⟩ := hch
      rcases List.mem_cons.mp hx with rfl | hx'
      · exact ⟨b, hab,
          Or.inl (List.mem_cons_of_mem _ (List.mem_cons_self b rest'))⟩
      · obtain ⟨y, hpo, hy⟩ := ih tgt hch' x hx'
        rcases hy with hy | hy
        · exact ⟨y, hpo, Or.inl (List.mem_cons_of_mem _ hy)⟩
        · exact ⟨y, hpo, Or.inr hy⟩

/-- C7: for every registered type hierarchy with unique keys... the
resolution succeeds, resolves each registered parent before its child, and
gives the child the merge of the parent's (resolved) properties with its
own — child values overriding — with `contains`/`searchable` unioned
parent-first (all packaged in `mergeEntity`). -/
theorem C7_inheritance_resolution (types₀ : TypeMap)
    (hacyc : acyclicTypes types₀) :
    ∃ st' order, TypeRegistry.resolve_inheritance types₀ = .ok (st', order)
      ∧ ∀ n e p, List.lookup n types₀ = some e → e.inherits = some p →
          p ≠ "" → (List.lookup p types₀).isSome = true →
          p ∈ order ∧ beforeIn order p n
            ∧ ∃ pe, List.lookup p st' = some pe
                ∧ List.lookup n st' = some (mergeEntity pe e) := by
  have hinv0 : StateInv types₀ types₀ [] :=
    ⟨rfl, fun _ _ => rfl, fun n h => absurd h (List.not_mem_nil n),
      List.nodup_nil⟩
  cases hres : TypeRegistry.resolve_inheritance types₀ with
  | error e =>
    exfalso
    rw [TypeRegistry.resolve_inheritance] at hres
    exact foldlM_resolve_no_error types₀ hacyc (types₀.map Prod.fst) types₀
      [] e hinv0 hres
  | ok pr =>
    obtain ⟨st', order⟩ := pr
    have hres' := hres
    rw [TypeRegistry.resolve_inheritance] at hres'
    obtain ⟨⟨hkeys, hunres, hgood, hnd⟩, hall, _⟩ :=
      foldlM_resolve_ok types₀ (types₀.map Prod.fst) types₀ [] hinv0 hres'
    refine ⟨st', order, rfl, ?_⟩
    intro n e p hln hinh hpne hps
    have hnkeys : n ∈ types₀.map Prod.fst :=
      lookup_isSome_iff.mp (by rw [hln]; rfl)
    have hnord : n ∈ order := hall n hnkeys
    have hspec := hgood n hnord
    simp only [RSpec, hln] at hspec
    have htr : optStrTruthy e.inherits = true := by
      rw [hinh]
      simpa [optStrTruthy] using hpne
    have hgetD : e.inherits.getD "" = p := by rw [hinh]; rfl
    rw [if_pos ⟨htr, by rw [hgetD]; exact hps⟩] at hspec
    rw [hgetD] at hspec
    exact hspec

/-- C7 witness: resolving `Base{props:{x:int}}` and
`Child{inherits:Base, props:{y:str}}` succeeds, resolves `Base` before
`Child`, and gives `Child` the merged properties `{x:int, y:str}`. -/
theorem C7_inheritance_resolution_witness :
    ∃ st' order,
      TypeRegistry.resolve_inheritance baseChildTypes = .ok (st', order)
        ∧ "Base" ∈ order ∧ beforeIn order "Base" "Child"
        ∧ ∃ pe, List.lookup "Base" st' = some pe
            ∧ List.lookup "Child" st' = some (mergeEntity pe childEntity)
            ∧ (mergeEntity pe childEntity).properties
                = [("x", "int"), ("y", "str")] := by
  obtain ⟨st', order, hok, hmain⟩ :=
    C7_inheritance_resolution baseChildTypes
      (by unfold acyclicTypes; decide)
  obtain ⟨hmem, hbef, pe, hpe, hch⟩ :=
    hmain "Child" childEntity "Base" rfl rfl (by decide) rfl
  have hC : TypeRegistry.resolve_inheritance baseChildTypes
      = .ok ([("Base", baseEntity),
              ("Child", { properties := [("x", "int"), ("y", "str")],
                          inherits := some "Base" })],
             ["Base", "Child"]) := by rfl
  rw [hok] at hC
  injection hC with h2
  injection h2 with hst hord
  subst hst
  subst hord
  have hbase : List.lookup "Base"
      ([("Base", baseEntity),
        ("Child", { properties := [("x", "int"), ("y", "str")],
                    inherits := some "Base" })] : TypeMap)
        = some baseEntity := rfl
  rw [hbase] at hpe
  injection hpe with hpe2
  subst hpe2
  exact ⟨_, _, hok, hmem, hbef, baseEntity, hbase, hch, rfl⟩

/-- C8: for every type registry containing a circular inheritance chain
(`parentOf`-links running around a nonempty list of registered names),
`resolve_inheritance` raises the explicit circular-inheritance
`ValueError` — it neither succeeds nor runs forever. -/
theorem C8_cycle_detection (types₀ : TypeMap) (c : List String)
    (hc : CycleChain types₀ c) :
    ∃ m, TypeRegistry.resolve_inheritance types₀
      = .error (.circular m) := by
  obtain ⟨hcne, hlinks⟩ := hc
  obtain ⟨h0, crest, rfl⟩ := List.exists_cons_of_ne_nil hcne
  have hheadmem : (h0 :: crest).headD "" ∈ h0 :: crest := by
    simp
  have hSclosed : ∀ x ∈ h0 :: crest,
      ∃ y ∈ h0 :: crest, parentOf types₀ x = some y := by
    intro x hx
    obtain ⟨y, hpo, hy⟩ := chainLinks_mem types₀ (h0 :: crest) _ hlinks x hx
    rcases hy with hy | hy
    · exact ⟨y, hy, hpo⟩
    · exact ⟨y, hy ▸ hheadmem, hpo⟩
  have hinv0 : StateInv types₀ types₀ [] :=
    ⟨rfl, fun _ _ => rfl, fun n h => absurd h (List.not_mem_nil n),
      List.nodup_nil⟩
  cases hres : TypeRegistry.resolve_inheritance types₀ with
  | ok pr =>
    exfalso
    obtain ⟨st', order⟩ := pr
    rw [TypeRegistry.resolve_inheritance] at hres
    obtain ⟨_, hall, _⟩ :=
      foldlM_resolve_ok types₀ (types₀.map Prod.fst) types₀ [] hinv0 hres
    have hSfree := foldlM_resolve_S_free types₀ (h0 :: crest) hSclosed
      (types₀.map Prod.fst) types₀ [] hinv0
      (fun x _ h => absurd h (List.not_mem_nil x)) hres
    have h0keys : h0 ∈ types₀.map Prod.fst := by
      obtain ⟨y, _, hpo⟩ := hSclosed h0 (List.mem_cons_self h0 crest)
      obtain ⟨e, hl, _⟩ := parentOf_inv hpo
      exact lookup_isSome_iff.mp (by rw [hl]; rfl)
    exact hSfree h0 (List.mem_cons_self h0 crest) (hall h0 h0keys)
  | error e =>
    have hres' := hres
    rw [TypeRegistry.resolve_inheritance] at hres'
    obtain ⟨m, rfl⟩ :=
      foldlM_resolve_error types₀ (types₀.map Prod.fst) types₀ [] e hinv0
        hres'
    exact ⟨m, rfl⟩

/-- C8 witness: the schema `A inherits B`, `B inherits A` makes
`resolve_inheritance` raise the circular-inheritance error. -/
theorem C8_cycle_detection_witness :
    ∃ m, TypeRegistry.resolve_inheritance cycleTypes
      = .error (.circular m) :=
  C8_cycle_detection cycleTypes ["A", "B"] ⟨by decide, ⟨rfl, rfl⟩⟩

end Reveal
